import Mathlib

/-!
Verification development for the `qr-products` content pipeline.

Python strings are modelled as `List Char`; machine text transforms
(`str.strip`, `str.replace`, `re.sub` with character-class and
word-boundary patterns) are modelled as executable functions on
`List Char`.  ASCII case folding models Python's case-insensitive
regex flag and `str.upper()`/`str.lower()` on the ASCII range.
-/

namespace QRP

/-- ASCII lower-casing on code points, modelling Python case folding. -/
def lowerN (n : Nat) : Nat := if 65 ≤ n ∧ n ≤ 90 then n + 32 else n

/-- ASCII upper-casing on code points. -/
def upperN (n : Nat) : Nat := if 97 ≤ n ∧ n ≤ 122 then n - 32 else n

/-- Case-insensitive character match (the `re.IGNORECASE` model). -/
def chEq (a b : Char) : Bool := lowerN a.toNat == lowerN b.toNat

/-- Python regex `\w` on the ASCII range: letters, digits, underscore. -/
def isWordCharN (n : Nat) : Bool :=
  (decide (48 ≤ n) && decide (n ≤ 57)) ||
  (decide (65 ≤ n) && decide (n ≤ 90)) ||
  (decide (97 ≤ n) && decide (n ≤ 122)) ||
  decide (n = 95)

def isWordChar (c : Char) : Bool := isWordCharN c.toNat

/-- Whitespace class used by `str.strip()` and regex `\s` (ASCII). -/
def isSpaceB (c : Char) : Bool :=
  c == ' ' || c == '\t' || c == '\n' || c == '\x0d' || c == '\x0b' || c == '\x0c'

/-- Python `str.upper()` restricted to ASCII. -/
def upperC (c : Char) : Char :=
  if 97 ≤ c.toNat ∧ c.toNat ≤ 122 then Char.ofNat (c.toNat - 32) else c

def toUpperL (cs : List Char) : List Char := cs.map upperC

/-- Exact prefix test: `pat` is a prefix of `l`. -/
def startsWithL : List Char → List Char → Bool
  | [], _ => true
  | _ :: _, [] => false
  | p :: ps, c :: cs => p == c && startsWithL ps cs

/-- Python `needle in hay` substring test. -/
def containsL (hay needle : List Char) : Bool :=
  startsWithL needle hay ||
    match hay with
    | [] => false
    | _ :: t => containsL t needle

/-- Python `str.strip()` (both ends). -/
def stripL (cs : List Char) : List Char :=
  ((cs.dropWhile isSpaceB).reverse.dropWhile isSpaceB).reverse

/-- Worker for `replaceAll`: a positive first argument means that many
characters of an already-matched occurrence remain to be skipped. -/
def replaceAllAux (p0 : Char) (ps repl : List Char) : Nat → List Char → List Char
  | _, [] => []
  | n + 1, _ :: cs => replaceAllAux p0 ps repl n cs
  | 0, c :: cs =>
    if startsWithL (p0 :: ps) (c :: cs) then
      repl ++ replaceAllAux p0 ps repl ps.length cs
    else
      c :: replaceAllAux p0 ps repl 0 cs

/-- Python `str.replace(old, new)`: every non-overlapping occurrence,
left to right.  The pattern is `p0 :: ps` (never empty in this code). -/
def replaceAll (p0 : Char) (ps repl cs : List Char) : List Char :=
  replaceAllAux p0 ps repl 0 cs

/-- Worker for `runSub`; the flag records whether the previous character
was part of the class run currently being replaced. -/
def runSubAux (p : Char → Bool) (r : Char) : Bool → List Char → List Char
  | _, [] => []
  | inRun, c :: cs =>
    if p c then
      (if inRun then runSubAux p r true cs else r :: runSubAux p r true cs)
    else c :: runSubAux p r false cs

/-- Model of `re.sub(r"[class]+", r, s)`: each maximal run of characters in the
class becomes the single character `r`. -/
def runSub (p : Char → Bool) (r : Char) (cs : List Char) : List Char :=
  runSubAux p r false cs

/-- The forbidden-filename character class `[\\/:*?"<>|]`. -/
def isForbidden (c : Char) : Bool :=
  c == '\\' || c == '/' || c == ':' || c == '*' || c == '?' ||
  c == '\"' || c == '<' || c == '>' || c == '|'

/-- Embedding of `generate_json_from_excel.safe_filename`: strip, remove every
occurrence of ".0", squash forbidden-character runs to "-",
squash whitespace runs to " ". -/
def safe_filename (value : List Char) : List Char :=
  runSub isSpaceB ' ' (runSub isForbidden '-'
    (replaceAll '.' ['0'] [] (stripL value)))

/-- Python ASCII `str.lower()`. -/
def lowerC (c : Char) : Char :=
  if 65 ≤ c.toNat ∧ c.toNat ≤ 90 then Char.ofNat (c.toNat + 32) else c

def toLowerL (cs : List Char) : List Char := cs.map lowerC

/-- Case-insensitive prefix match: the pattern matches the head of the
list character by character under ASCII case folding. -/
def startsWithCI : List Char → List Char → Bool
  | [], _ => true
  | _ :: _, [] => false
  | p :: ps, c :: cs => chEq c p && startsWithCI ps cs

/-- Boundary `\b` immediately after a match: next char absent or not a word char. -/
def boundaryAfter : List Char → Bool
  | [] => true
  | c :: _ => !isWordChar c

/-- Worker for `re.sub(r"\b<pat>\b", repl, s, flags=re.IGNORECASE)` with
`pat = p0 :: ps`.  A positive skip count means that many characters of a
matched occurrence remain to be consumed; the Bool records whether the
previous character was a word character (so `\b` before a candidate
match is its negation). -/
def reSubWordAux (p0 : Char) (ps repl : List Char) : Nat → Bool → List Char → List Char
  | _, _, [] => []
  | n + 1, _, _ :: cs => reSubWordAux p0 ps repl n true cs
  | 0, prev, c :: cs =>
    if !prev && startsWithCI (p0 :: ps) (c :: cs) && boundaryAfter (cs.drop ps.length) then
      repl ++ reSubWordAux p0 ps repl ps.length true cs
    else
      c :: reSubWordAux p0 ps repl 0 (isWordChar c) cs

/-- Model of `re.sub(r"\b<pat>\b", repl, s, flags=re.IGNORECASE)` on a whole string. -/
def reSubWord (p0 : Char) (ps repl cs : List Char) : List Char :=
  reSubWordAux p0 ps repl 0 false cs

/-- Model of `re.search(r"\b<pat>\b", s, flags=re.IGNORECASE) is not None`,
with the same previous-character convention as `reSubWordAux`. -/
def hasWordCI (p0 : Char) (ps : List Char) : Bool → List Char → Bool
  | _, [] => false
  | prev, c :: cs =>
    (!prev && startsWithCI (p0 :: ps) (c :: cs) && boundaryAfter (cs.drop ps.length)) ||
      hasWordCI p0 ps (isWordChar c) cs

/-- Case-insensitive equality of two character lists. -/
def eqCI : List Char → List Char → Bool
  | [], [] => true
  | a :: as, b :: bs => chEq a b && eqCI as bs
  | _, _ => false

/-- A maximal run of word characters (`.w`) or non-word characters (`.s`). -/
inductive Tok where
  | w (v : List Char)
  | s (v : List Char)
deriving DecidableEq

def Tok.chars : Tok → List Char
  | .w v => v
  | .s v => v

def Tok.isWordTok : Tok → Bool
  | .w _ => true
  | .s _ => false

def detok (ts : List Tok) : List Char := ts.foldr (fun t acc => t.chars ++ acc) []

/-- Split a string into maximal word/non-word runs. -/
def tokenize : List Char → List Tok
  | [] => []
  | c :: cs =>
    if isWordChar c then
      Tok.w (c :: cs.takeWhile isWordChar) :: tokenize (cs.dropWhile isWordChar)
    else
      Tok.s (c :: cs.takeWhile (fun x => !isWordChar x)) :: tokenize (cs.dropWhile (fun x => !isWordChar x))
termination_by cs => cs.length
decreasing_by
  all_goals
    have h : ∀ (p : Char → Bool) (l : List Char), (l.dropWhile p).length ≤ l.length := by
      intro p l
      induction l with
      | nil => simp [List.dropWhile]
      | cons a t ih =>
        simp only [List.dropWhile]
        split
        · exact Nat.le_succ_of_le ih
        · simp
  · simp only [List.length_cons]
    exact Nat.lt_succ_of_le (h _ _)
  · simp only [List.length_cons]
    exact Nat.lt_succ_of_le (h _ _)

/-- Token-level view of the word substitution: a word token that equals
the pattern case-insensitively becomes the replacement. -/
def subTok (pat repl : List Char) : Tok → Tok
  | .w v => if eqCI v pat then .w repl else .w v
  | .s v => .s v

def subToks (pat repl : List Char) (ts : List Tok) : List Char :=
  detok (ts.map (subTok pat repl))

def hasTok (pat : List Char) (ts : List Tok) : Bool :=
  ts.any fun t =>
    match t with
    | .w v => eqCI v pat
    | .s _ => false

/-- Token-level substitution when the character before the string is a
word character: an initial word token is glued to it and ineligible. -/
def glueSub (pat repl : List Char) (ts : List Tok) : List Char :=
  match ts with
  | .w v :: rest => v ++ subToks pat repl rest
  | _ => subToks pat repl ts

/-- Token-level search under the same glue convention. -/
def glueHas (pat : List Char) (ts : List Tok) : Bool :=
  match ts with
  | .w _ :: rest => hasTok pat rest
  | _ => hasTok pat ts

/-- Well-formedness of a single token: non-empty and homogeneous. -/
def TokOK : Tok → Prop
  | .w v => v ≠ [] ∧ ∀ c ∈ v, isWordChar c = true
  | .s v => v ≠ [] ∧ ∀ c ∈ v, isWordChar c = false

/-- Well-formed token list: each token ok, kinds alternate. -/
def ToksOK (ts : List Tok) : Prop :=
  (∀ t ∈ ts, TokOK t) ∧ List.Chain' (fun a b => a.isWordTok ≠ b.isWordTok) ts

-- ---------------------------------------------------------------------
-- post_qc.py
-- ---------------------------------------------------------------------

/-- Characters kept by `re.sub(r"[^a-z0-9]", "", s)` on a lowercased string. -/
def isLowerAlnum (c : Char) : Bool :=
  (decide (97 ≤ c.toNat) && decide (c.toNat ≤ 122)) ||
  (decide (48 ≤ c.toNat) && decide (c.toNat ≤ 57))

/-- Scheme part of `urlparse`: consume `scheme:` when the characters up
to a colon are scheme characters; return what follows the colon. -/
def schemeTail : List Char → Option (List Char)
  | [] => none
  | c :: cs =>
    if c == ':' then some cs
    else if c.isAlphanum || c == '+' || c == '-' || c == '.' then schemeTail cs
    else none

/-- Model of `urlparse(url).netloc`: strip a leading `scheme:`, then if the
remainder starts with `//`, the netloc runs until `/`, `?` or `#`. -/
def netloc (url : List Char) : List Char :=
  let rest :=
    match url with
    | c :: cs =>
      if c.isAlpha then
        match schemeTail cs with
        | some r => r
        | none => url
      else url
    | [] => url
  if startsWithL ['/', '/'] rest then
    (rest.drop 2).takeWhile fun c => !(c == '/' || c == '?' || c == '#')
  else []

def BAD_DOMAINS : List (List Char) :=
  ["wikipedia.org".toList, "facebook.com".toList, "instagram.com".toList,
   "twitter.com".toList, "pinterest.com".toList, "opentermsarchive.org".toList,
   "cbsox.com".toList]

def RETAILERS : List (List Char) :=
  ["amazon".toList, "walmart".toList, "publix".toList, "metro".toList,
   "winndixie".toList, "totalwine".toList, "instacart".toList,
   "bakkal".toList, "gastronom".toList]

/-- Embedding of `post_qc.is_relevant_source`. -/
def is_relevant_source (url brand : List Char) : Bool :=
  if url.isEmpty then false
  else
    let domain := toLowerL (netloc url)
    if BAD_DOMAINS.any (fun b => containsL domain b) then false
    else
      let brandKey := (toLowerL brand).filter isLowerAlnum
      let domainKey := domain.filter isLowerAlnum
      if !brandKey.isEmpty && containsL domainKey (brandKey.take 6) then true
      else RETAILERS.any fun r => containsL domainKey r

/-- Embedding of `post_qc.fix_water_description`. -/
def fix_water_description (desc title : List Char) : List Char :=
  let t := toUpperL title
  let d1 :=
    if containsL t "NON-CARBONATED".toList || containsL t "STILL".toList ||
        containsL t "BLUE".toList then
      reSubWord 's' "parkling".toList "still".toList desc
    else desc
  if containsL t "SPARKLING".toList || containsL t "CARBONATED".toList ||
      containsL t "GREEN".toList then
    reSubWord 's' "till".toList "sparkling".toList d1
  else d1

structure Source where
  name : List Char
  url : List Char
deriving DecidableEq

/-- The `en` fields that `post_qc.py` reads and writes. -/
structure QCEn where
  title : List Char
  description : List Char
  sources : List Source
deriving DecidableEq

structure QCRec where
  brand : List Char
  category : List Char
  en : QCEn
deriving DecidableEq

/-- The placeholder source substituted when filtering empties the list. -/
def placeholderSource : Source :=
  ⟨"Public product information".toList, []⟩

/-- The SOURCES CLEAN block of `post_qc.py` (no-op on an empty list,
mirroring the `if sources:` guard). -/
def clean_sources (brand : List Char) (sources : List Source) : List Source :=
  if sources.isEmpty then sources
  else
    let clean := sources.filter fun s => is_relevant_source s.url brand
    if clean.isEmpty then [placeholderSource] else clean

/-- One record's pass through the `post_qc.py` main loop. -/
def post_qc (r : QCRec) : QCRec :=
  { r with
    en :=
      { r.en with
        sources := clean_sources r.brand r.en.sources
        description :=
          if r.category = "Water".toList then
            fix_water_description r.en.description r.en.title
          else r.en.description } }

-- ---------------------------------------------------------------------
-- premium_pass.py
-- ---------------------------------------------------------------------

structure HistEntry where
  year : List Char
  text : List Char
deriving DecidableEq

/-- The `en` fields that `premium_pass.py` reads and writes. -/
structure PEn where
  description : List Char
  ingredients : List Char
  history : List HistEntry
deriving DecidableEq

structure PRec where
  brand : List Char
  category : List Char
  country_of_origin : List Char
  en : PEn
deriving DecidableEq

def WATER_ADD : List Char :=
  "Carefully sourced and valued for its purity and everyday refreshment, it is well suited for daily hydration at home or on the go.".toList

def CEREAL_ADD : List Char :=
  "Prepared using traditional methods, this product is appreciated for its consistent quality and versatility in everyday home cooking.".toList

def BEER_ADD : List Char :=
  "Brewed with attention to balance and character, it reflects the heritage and craftsmanship associated with its style.".toList

def PASTA_ADD : List Char :=
  "Made to deliver reliable texture and taste, it is suitable for a wide range of classic and modern recipes.".toList

def GENERIC_ADD : List Char :=
  "Valued for its consistent quality and suitability for everyday use.".toList

def ING_ADD : List Char :=
  "Commonly used in traditional recipes and everyday cooking.".toList

/-- Embedding of `premium_pass.enhance_description`. -/
def enhance_description (desc category : List Char) : List Char :=
  if desc.isEmpty then desc
  else if 180 < desc.length then desc
  else
    let cu := toUpperL category
    let extra :=
      if cu = "WATER".toList then WATER_ADD
      else if cu = "CEREAL".toList then CEREAL_ADD
      else if cu = "BEER".toList then BEER_ADD
      else if cu = "PASTA".toList then PASTA_ADD
      else GENERIC_ADD
    stripL desc ++ ' ' :: extra

/-- Embedding of `premium_pass.enhance_ingredients`. -/
def enhance_ingredients (ing : List Char) : List Char :=
  if ing.isEmpty then ing
  else if 60 < ing.length then ing
  else stripL ing ++ ' ' :: ING_ADD

/-- Embedding of `premium_pass.enhance_history`.  Note the guard: an empty history is
returned unchanged; only a non-empty history shorter than 3 entries is
regenerated from the 3-stage template. -/
def enhance_history (history : List HistEntry) (brand category country : List Char) : List HistEntry :=
  if history.isEmpty || 3 ≤ history.length then history
  else
    [⟨"Origins".toList,
      "The ".toList ++ brand ++ " brand originates from ".toList ++
        (if country.isEmpty then "its region of production".toList else country) ++
        ", reflecting local traditions and expertise.".toList⟩,
     ⟨"Production".toList,
      "Over time, ".toList ++ brand ++
        " has focused on maintaining consistent quality and careful production standards within the ".toList ++
        toLowerL category ++ " category.".toList⟩,
     ⟨"Today".toList,
      "Today, ".toList ++ brand ++
        " products are appreciated for their reliability and suitability for everyday use.".toList⟩]

/-- One record's pass through the `premium_pass.py` main loop. -/
def premium_pass (r : PRec) : PRec :=
  { r with
    en :=
      { description := enhance_description r.en.description r.category
        ingredients := enhance_ingredients r.en.ingredients
        history := enhance_history r.en.history r.brand r.category r.country_of_origin } }

-- ---------------------------------------------------------------------
-- content_generators.py / i18n_translator.py / generate_json_from_excel.py
-- ---------------------------------------------------------------------

structure SectionTitles where
  description_title : List Char
  ingredients_title : List Char
  precautions_title : List Char
  history_title : List Char
deriving DecidableEq

structure MetaLabels where
  brand : List Char
  country_of_origin : List Char
  category : List Char
  size : List Char
  alcohol_content : List Char
  sku : List Char
deriving DecidableEq

/-- A localized content block as populated by the generator/localizer.
`meta` is `none` when the block has no `meta` key (the `en` block). -/
structure LBlock where
  title : List Char
  sections : SectionTitles
  meta : Option MetaLabels
  description : List Char
  ingredients : List Char
  precautions : List Char
  history : List HistEntry
deriving DecidableEq

def SECTION_TITLES_en : SectionTitles :=
  ⟨"Description".toList, "Ingredients".toList,
   "Consumption precautions".toList, "History".toList⟩

/-- Embedding of `content_generators.generate_en_content`: overwrites the listed keys
of the template's `en` block (anything else, e.g. the absence of a
`meta` key, is preserved). -/
def generate_en_content (name brand country : List Char) (en_block : LBlock) : LBlock :=
  let title := if (stripL name).isEmpty then brand else stripL name
  { en_block with
    title := title
    sections := SECTION_TITLES_en
    description :=
      title ++ " is produced using traditional methods. Made in ".toList ++
        country ++ ", it reflects the heritage and expertise of the brand.".toList
    ingredients :=
      "Ingredients may vary depending on the product. Please refer to the packaging for details.".toList
    precautions :=
      "Store according to package instructions. Check the label for allergen information.".toList
    history :=
      [⟨"Origins".toList,
        "The ".toList ++ brand ++ " brand was founded in ".toList ++ country ++ ".".toList⟩,
       ⟨"Development".toList,
        "Over time, ".toList ++ brand ++ " expanded its range.".toList⟩,
       ⟨"Today".toList,
        "Today, ".toList ++ brand ++ " products are enjoyed worldwide.".toList⟩] }

/-- Table `i18n_translator.SECTION_TITLES[lang]` for the seven fixed languages. -/
def sectionTitlesFor (lang : List Char) : SectionTitles :=
  if lang = "ru".toList then
    ⟨"Описание".toList, "Ингредиенты".toList, "Предостережения".toList, "История".toList⟩
  else if lang = "ua".toList then
    ⟨"Опис".toList, "Інгредієнти".toList, "Застереження".toList, "Історія".toList⟩
  else if lang = "de".toList then
    ⟨"Beschreibung".toList, "Zutaten".toList, "Hinweise".toList, "Geschichte".toList⟩
  else if lang = "es".toList then
    ⟨"Descripción".toList, "Ingredientes".toList, "Advertencias".toList, "Historia".toList⟩
  else if lang = "it".toList then
    ⟨"Descrizione".toList, "Ingredienti".toList, "Avvertenze".toList, "Storia".toList⟩
  else if lang = "hr".toList then
    ⟨"Opis".toList, "Sastojci".toList, "Upozorenja".toList, "Povijest".toList⟩
  else
    ⟨"Leírás".toList, "Összetevők".toList, "Figyelmeztetések".toList, "Történet".toList⟩

/-- Table `i18n_translator.META_LABELS[lang]`. -/
def metaLabelsFor (lang : List Char) : MetaLabels :=
  if lang = "ru".toList then
    ⟨"Бренд".toList, "Страна происхождения".toList, "Категория".toList,
     "Размер".toList, "Содержание алкоголя".toList, "SKU".toList⟩
  else if lang = "ua".toList then
    ⟨"Бренд".toList, "Країна походження".toList, "Категорія".toList,
     "Розмір".toList, "Вміст алкоголю".toList, "SKU".toList⟩
  else if lang = "de".toList then
    ⟨"Marke".toList, "Herkunftsland".toList, "Kategorie".toList,
     "Größe".toList, "Alkoholgehalt".toList, "SKU".toList⟩
  else if lang = "es".toList then
    ⟨"Marca".toList, "País de origen".toList, "Categoría".toList,
     "Tamaño".toList, "Graduación alcohólica".toList, "SKU".toList⟩
  else if lang = "it".toList then
    ⟨"Marca".toList, "Paese d\x27origine".toList, "Categoria".toList,
     "Formato".toList, "Contenuto alcolico".toList, "SKU".toList⟩
  else if lang = "hr".toList then
    ⟨"Brend".toList, "Zemlja podrijetla".toList, "Kategorija".toList,
     "Veličina".toList, "Sadržaj alkohola".toList, "SKU".toList⟩
  else
    ⟨"Márka".toList, "Származási ország".toList, "Kategória".toList,
     "Méret".toList, "Alkoholtartalom".toList, "SKU".toList⟩

/-- Template `i18n_translator.DESC_TPL[lang].format(...)`. -/
def descTplFor (lang name brand country size : List Char) : List Char :=
  if lang = "ru".toList then
    name ++ " — продукт бренда ".toList ++ brand ++ ", произведённый в ".toList ++ country ++
      ". Изготовлен традиционными методами и отличается стабильным качеством. Удобный формат ".toList ++
      size ++ " подходит как для повседневного использования, так и для особых случаев.".toList
  else if lang = "ua".toList then
    name ++ " — продукт бренду ".toList ++ brand ++ ", виготовлений у ".toList ++ country ++
      ". Створений традиційними методами та вирізняється стабільною якістю. Зручний формат ".toList ++
      size ++ " підходить і для щоденного використання, і для особливих моментів.".toList
  else if lang = "de".toList then
    name ++ " ist ein Produkt der Marke ".toList ++ brand ++ " aus ".toList ++ country ++
      ". Nach traditionellen Methoden hergestellt und für gleichbleibende Qualität bekannt. Das Format ".toList ++
      size ++ " eignet sich sowohl für den Alltag als auch für besondere Anlässe.".toList
  else if lang = "es".toList then
    name ++ " es un producto de la marca ".toList ++ brand ++ " elaborado en ".toList ++ country ++
      ". Se produce con métodos tradicionales y destaca por su calidad constante. Su formato ".toList ++
      size ++ " es ideal para el día a día y ocasiones especiales.".toList
  else if lang = "it".toList then
    name ++ " è un prodotto del marchio ".toList ++ brand ++ " realizzato in ".toList ++ country ++
      ". Prodotto con metodi tradizionali e noto per la qualità costante. Il formato ".toList ++
      size ++ " è perfetto sia per l\u2019uso quotidiano sia per le occasioni speciali.".toList
  else if lang = "hr".toList then
    name ++ " je proizvod brenda ".toList ++ brand ++ " proizveden u ".toList ++ country ++
      ". Izrađen tradicionalnim metodama i poznat po ujednačenoj kvaliteti. Format ".toList ++
      size ++ " prikladan je za svakodnevnu upotrebu i posebne prilike.".toList
  else
    "A(z) ".toList ++ name ++ " a ".toList ++ brand ++ " márka terméke ".toList ++ country ++
      " területéről. Hagyományos eljárással készül, megbízható minőséggel. A(z) ".toList ++
      size ++ " kiszerelés a mindennapokra és különleges alkalmakra is ideális.".toList

/-- Table `i18n_translator.ING_TEXT[lang]`. -/
def ingTextFor (lang : List Char) : List Char :=
  if lang = "ru".toList then
    "Состав может отличаться в зависимости от продукта. См. упаковку.".toList
  else if lang = "ua".toList then
    "Склад може відрізнятися залежно від продукту. Див. упаковку.".toList
  else if lang = "de".toList then
    "Die Zutaten können je nach Produkt variieren. Siehe Verpackung.".toList
  else if lang = "es".toList then
    "Los ingredientes pueden variar según el producto. Consulte el envase.".toList
  else if lang = "it".toList then
    "Gli ingredienti possono variare a seconda del prodotto. Vedi confezione.".toList
  else if lang = "hr".toList then
    "Sastojci se mogu razlikovati ovisno o proizvodu. Pogledajte pakiranje.".toList
  else
    "Az összetevők termékenként eltérhetnek. Lásd a csomagolást.".toList

/-- Table `i18n_translator.PREC_TEXT[lang]`. -/
def precTextFor (lang : List Char) : List Char :=
  if lang = "ru".toList then
    "Хранить согласно указаниям на упаковке. Проверьте аллергенную информацию.".toList
  else if lang = "ua".toList then
    "Зберігати згідно з інструкціями на упаковці. Перевірте алергени.".toList
  else if lang = "de".toList then
    "Gemäß den Anweisungen auf der Verpackung lagern. Allergenhinweise prüfen.".toList
  else if lang = "es".toList then
    "Conservar según las instrucciones del envase. Verifique alérgenos.".toList
  else if lang = "it".toList then
    "Conservare secondo le istruzioni sulla confezione. Verificare allergeni.".toList
  else if lang = "hr".toList then
    "Čuvati prema uputama na pakiranju. Provjeriti alergene.".toList
  else
    "A csomagolás szerint tárolandó. Ellenőrizze az allergéneket.".toList

/-- Table `i18n_translator.HIST_TPL[lang]`, each template applied to brand/country. -/
def histTplFor (lang brand country : List Char) : List (List Char) :=
  if lang = "ru".toList then
    ["Бренд ".toList ++ brand ++ " был основан в ".toList ++ country ++ ".".toList,
     "Со временем бренд ".toList ++ brand ++ " расширил ассортимент.".toList,
     "Сегодня продукция ".toList ++ brand ++ " известна и любима во многих странах.".toList]
  else if lang = "ua".toList then
    ["Бренд ".toList ++ brand ++ " був заснований у ".toList ++ country ++ ".".toList,
     "З часом бренд ".toList ++ brand ++ " розширив асортимент.".toList,
     "Сьогодні продукція ".toList ++ brand ++ " відома у багатьох країнах.".toList]
  else if lang = "de".toList then
    ["Die Marke ".toList ++ brand ++ " wurde in ".toList ++ country ++ " gegründet.".toList,
     "Im Laufe der Zeit erweiterte ".toList ++ brand ++ " sein Sortiment.".toList,
     "Heute werden ".toList ++ brand ++ " Produkte weltweit geschätzt.".toList]
  else if lang = "es".toList then
    ["La marca ".toList ++ brand ++ " fue fundada en ".toList ++ country ++ ".".toList,
     "Con el tiempo, ".toList ++ brand ++ " amplió su gama de productos.".toList,
     "Hoy, los productos ".toList ++ brand ++ " se disfrutan en todo el mundo.".toList]
  else if lang = "it".toList then
    ["Il marchio ".toList ++ brand ++ " è stato fondato in ".toList ++ country ++ ".".toList,
     "Nel tempo, ".toList ++ brand ++ " ha ampliato la sua gamma.".toList,
     "Oggi i prodotti ".toList ++ brand ++ " sono apprezzati in tutto il mondo.".toList]
  else if lang = "hr".toList then
    ["Marka ".toList ++ brand ++ " osnovana je u ".toList ++ country ++ ".".toList,
     "S vremenom je ".toList ++ brand ++ " proširio svoj asortiman.".toList,
     "Danas se proizvodi ".toList ++ brand ++ " koriste diljem svijeta.".toList]
  else
    ["A ".toList ++ brand ++ " márkát ".toList ++ country ++ " területén alapították.".toList,
     "Idővel a ".toList ++ brand ++ " kibővítette termékkínálatát.".toList,
     "Ma a ".toList ++ brand ++ " termékeket világszerte élvezik.".toList]

/-- One language's block built by `i18n_translator.generate_i18n_from_en`:
deep copy of `en`, then overwrite sections, meta, title, description,
ingredients, precautions and history (years copied positionally from
the `en` history, else empty). -/
def translated_block (en : LBlock) (name brand country size lang : List Char) : LBlock :=
  let years := en.history.map HistEntry.year
  { en with
    sections := sectionTitlesFor lang
    meta := some (metaLabelsFor lang)
    title := name
    description := descTplFor lang name brand country size
    ingredients := ingTextFor lang
    precautions := precTextFor lang
    history := (histTplFor lang brand country).enum.map fun it =>
      ⟨years.getD it.1 [], it.2⟩ }

/-- The fixed i18n map: `en` plus the seven declared languages. -/
structure I18nMap where
  en : LBlock
  ru : Option LBlock
  ua : Option LBlock
  de : Option LBlock
  es : Option LBlock
  it : Option LBlock
  hr : Option LBlock
  hu : Option LBlock
deriving DecidableEq

structure Product where
  sku : List Char
  name : List Char
  brand : List Char
  country_of_origin : List Char
  category : List Char
  size : List Char
  alcohol_content : List Char
  image : List Char
  tags : List (List Char)
  i18n : I18nMap
deriving DecidableEq

/-- Embedding of `i18n_translator.generate_i18n_from_en` over a whole product. -/
def generate_i18n_from_en (p : Product) : Product :=
  let en := p.i18n.en
  let name := stripL (if p.name.isEmpty then en.title else p.name)
  let brand := stripL p.brand
  let country := stripL p.country_of_origin
  let size := stripL p.size
  let blk := fun lang => some (translated_block en name brand country size lang)
  { p with
    i18n :=
      { en := en
        ru := blk "ru".toList, ua := blk "ua".toList, de := blk "de".toList
        es := blk "es".toList, it := blk "it".toList, hr := blk "hr".toList
        hu := blk "hu".toList } }

/-- Python `str.split(",")` on a character list. -/
def splitComma : List Char → List (List Char)
  | [] => [[]]
  | c :: cs =>
    let r := splitComma cs
    if c == ',' then [] :: r
    else
      match r with
      | h :: t => (c :: h) :: t
      | [] => [[c]]

/-- One input row of the spreadsheet (columns used by the generator). -/
structure Row where
  skuId : List Char
  brand : List Char
  skuName : List Char
  country : List Char
  department : List Char
  size : List Char
  tags : List Char
deriving DecidableEq

/-- The per-row body of the `generate_json_from_excel.py` main loop:
fill basic fields, reset i18n to the template's `en` block, generate the
`en` content, then localize.  `templateEn` stands for the `en` block of
`template_product.json` (a data file). -/
def build_product (templateEn : LBlock) (row : Row) : Product :=
  let sku := safe_filename (stripL row.skuId)
  let name := stripL row.skuName
  let brand := stripL row.brand
  let country := stripL row.country
  let base : Product :=
    { sku := sku
      name := name
      brand := brand
      country_of_origin := country
      category := stripL row.department
      size := stripL row.size
      alcohol_content := []
      image := "../../assets/".toList ++ sku ++ ".jpg".toList
      tags := ((splitComma (stripL row.tags)).map stripL).filter fun t => !t.isEmpty
      i18n :=
        { en := generate_en_content name brand country templateEn
          ru := none, ua := none, de := none, es := none
          it := none, hr := none, hu := none } }
  generate_i18n_from_en base

/-- The spec's end-to-end scenario row. -/
def k100_row : Row :=
  ⟨"K100".toList, "KRINOS".toList, "Olives 500g".toList, "Greece".toList,
   "Pickled / Olives".toList, "500g".toList, "greek,olives".toList⟩

-- ---------------------------------------------------------------------
-- i18n key structure (dict-level view of the localizer)
-- ---------------------------------------------------------------------

/-- Python dict assignment at the key level: an existing key keeps its
position, a new key is appended. -/
def dictInsertKey (ks : List String) (k : String) : List String :=
  if k ∈ ks then ks else ks ++ [k]

/-- The keys written on the deep copy of `en` by
`i18n_translator.generate_i18n_from_en`, in program order. -/
def I18N_WRITTEN_KEYS : List String :=
  ["sections", "meta", "title", "description", "ingredients", "precautions", "history"]

/-- Key set of a language block produced by the localizer, given the key
set of the `en` block it deep-copies. -/
def lang_block_keys (enKeys : List String) : List String :=
  I18N_WRITTEN_KEYS.foldl dictInsertKey enKeys

/-- The keys `generate_en_content` writes into the template's (empty)
`en` block, in dict-literal order. -/
def GEN_EN_KEYS : List String :=
  ["title", "sections", "description", "ingredients", "precautions", "history"]

-- ---------------------------------------------------------------------
-- generate_pages.py
-- ---------------------------------------------------------------------

def LANG_MAP : List (List Char × List Char) :=
  [("en".toList, "index.html".toList), ("ru".toList, "ru.html".toList),
   ("ua".toList, "ua.html".toList), ("de".toList, "de.html".toList),
   ("es".toList, "es.html".toList), ("it".toList, "it.html".toList),
   ("hr".toList, "hr.html".toList), ("hu".toList, "hu.html".toList)]

/-- Lookup `data["i18n"].get(lang, default)` over the fixed map. -/
def langBlockOf (p : Product) (lang : List Char) : Option LBlock :=
  if lang = "en".toList then some p.i18n.en
  else if lang = "ru".toList then p.i18n.ru
  else if lang = "ua".toList then p.i18n.ua
  else if lang = "de".toList then p.i18n.de
  else if lang = "es".toList then p.i18n.es
  else if lang = "it".toList then p.i18n.it
  else if lang = "hr".toList then p.i18n.hr
  else if lang = "hu".toList then p.i18n.hu
  else none

/-- A missing language block renders as all-empty fields
(a missing dict followed by per-key defaults). -/
def missingLBlock : LBlock :=
  ⟨[], ⟨[], [], [], []⟩, none, [], [], [], []⟩

/-- Python `str.replace` with a possibly-empty pattern guard (placeholders are
never empty). -/
def substAll (hay pat v : List Char) : List Char :=
  match pat with
  | [] => hay
  | p0 :: ps => replaceAll p0 ps v hay

def tagsHtml (tags : List (List Char)) : List Char :=
  (tags.map fun t =>
    "<span class=\"tag\">".toList ++ t ++ "</span>".toList).foldr (· ++ ·) []

/-- History markup: entries with empty text are skipped; the `year`
label span is never emitted because entries carry no `key` field and
blocks no `history_labels`, so the label lookup is always empty. -/
def historyHtml (hist : List HistEntry) : List Char :=
  (hist.map fun h =>
    if h.text.isEmpty then []
    else
      "<div class=\"history-item\">".toList ++ "<p>".toList ++ h.text ++
        "</p>".toList ++ "</div>".toList).foldr (· ++ ·) []

/-- The placeholder-substitution chain of `generate_pages.py` for one
language. -/
def renderLang (tpl : List Char) (p : Product) (sku lang : List Char) : List Char :=
  let i18nB := (langBlockOf p lang).getD missingLBlock
  let meta := i18nB.meta
  let metaGet := fun f => (meta.map f).getD []
  substAll (substAll (substAll (substAll (substAll (substAll (substAll (substAll
    (substAll (substAll (substAll (substAll (substAll (substAll (substAll
    (substAll (substAll (substAll tpl
    "\x7b\x7bTITLE\x7d\x7d".toList p.name)
    "\x7b\x7bTAGS\x7d\x7d".toList (tagsHtml p.tags))
    "\x7b\x7bBRAND_LABEL\x7d\x7d".toList (metaGet MetaLabels.brand))
    "\x7b\x7bCOUNTRY_LABEL\x7d\x7d".toList (metaGet MetaLabels.country_of_origin))
    "\x7b\x7bCATEGORY_LABEL\x7d\x7d".toList (metaGet MetaLabels.category))
    "\x7b\x7bSIZE_LABEL\x7d\x7d".toList (metaGet MetaLabels.size))
    "\x7b\x7bALCOHOL_LABEL\x7d\x7d".toList (metaGet MetaLabels.alcohol_content))
    "\x7b\x7bBRAND\x7d\x7d".toList p.brand)
    "\x7b\x7bCOUNTRY\x7d\x7d".toList p.country_of_origin)
    "\x7b\x7bCATEGORY\x7d\x7d".toList p.category)
    "\x7b\x7bSIZE\x7d\x7d".toList p.size)
    "\x7b\x7bALCOHOL\x7d\x7d".toList p.alcohol_content)
    "\x7b\x7bSKU\x7d\x7d".toList sku)
    "\x7b\x7bDESC_TITLE\x7d\x7d".toList i18nB.sections.description_title)
    "\x7b\x7bING_TITLE\x7d\x7d".toList i18nB.sections.ingredients_title)
    "\x7b\x7bPREC_TITLE\x7d\x7d".toList i18nB.sections.precautions_title)
    "\x7b\x7bHISTORY_TITLE\x7d\x7d".toList i18nB.sections.history_title)
    "\x7b\x7bDESCRIPTION\x7d\x7d".toList i18nB.description

/-- Remaining substitutions, split out to keep elaboration tractable. -/
def renderLangFull (tpl : List Char) (p : Product) (sku lang : List Char) : List Char :=
  let i18nB := (langBlockOf p lang).getD missingLBlock
  substAll (substAll (substAll (renderLang tpl p sku lang)
    "\x7b\x7bINGREDIENTS\x7d\x7d".toList i18nB.ingredients)
    "\x7b\x7bPRECAUTIONS\x7d\x7d".toList i18nB.precautions)
    "\x7b\x7bHISTORY_ITEMS\x7d\x7d".toList (historyHtml i18nB.history)

/-- Embedding of `generate_pages.py` for one record: one (directory, filename, html)
triple per entry of `LANG_MAP`; records with an empty stripped sku are
skipped. -/
def render_record (tpl : List Char) (p : Product) : List (List Char × List Char × List Char) :=
  let sku := stripL p.sku
  if sku.isEmpty then []
  else
    LANG_MAP.map fun lf =>
      ("products/".toList ++ sku, lf.2, renderLangFull tpl p sku lf.1)

-- ---------------------------------------------------------------------
-- merge_enriched_into_content.py
-- ---------------------------------------------------------------------

/-- The mergeable fields of an `en` block, `none` when the key is
absent from the JSON object. -/
structure MergeEn where
  description : Option (List Char)
  ingredients : Option (List Char)
  precautions : Option (List Char)
  history : Option (List HistEntry)
  sources : Option (List Source)
deriving DecidableEq

/-- One field of the `FIELDS_TO_MERGE` loop: overwrite only when the
incoming field is present and truthy (non-empty). -/
def merge_field {α : Type} (old new : Option (List α)) : Option (List α) :=
  match new with
  | some v => if v.isEmpty then old else some v
  | none => old

/-- The `FIELDS_TO_MERGE` loop of `merge_enriched_into_content.py`. -/
def merge_en (old new : MergeEn) : MergeEn :=
  { description := merge_field old.description new.description
    ingredients := merge_field old.ingredients new.ingredients
    precautions := merge_field old.precautions new.precautions
    history := merge_field old.history new.history
    sources := merge_field old.sources new.sources }

-- ---------------------------------------------------------------------
-- enrich_products.py (search/fetch caching)
-- ---------------------------------------------------------------------

structure SearchResult where
  title : List Char
  url : List Char
  snippet : List Char
deriving DecidableEq

structure WebDoc where
  url : List Char
  title : List Char
  text : List Char
deriving DecidableEq

/-- Association-list lookup (the on-disk cache keyed by `sha1(key)`,
modelled with the key itself). -/
def lookupA {β : Type} (k : List Char) : List (List Char × β) → Option β
  | [] => none
  | (k', v) :: t => if k' = k then some v else lookupA k t

def SearchCache := List (List Char × List SearchResult)

def PageCache := List (List Char × WebDoc)

/-- Outcome of the external DuckDuckGo call for one query. -/
inductive SearchOutcome where
  | ok (rs : List SearchResult)
  | exn
deriving DecidableEq

/-- Outcome of the external HTTP fetch and text extraction for one URL:
a successful response (already extracted to title/text), an HTTP status
>= 400, or an exception. -/
inductive FetchOutcome where
  | ok (title text : List Char)
  | httpError
  | exn
deriving DecidableEq

/-- Embedding of `enrich_products.ddg_search`: cached results short-circuit; an
exception degrades to an empty list which IS saved to the cache. -/
def ddg_search (q : List Char) (cache : List (List Char × List SearchResult))
    (outcome : SearchOutcome) : List SearchResult × List (List Char × List SearchResult) :=
  match lookupA q cache with
  | some rs => (rs, cache)
  | none =>
    let results := match outcome with | .ok rs => rs | .exn => []
    (results, (q, results) :: cache)

/-- Embedding of `enrich_products.fetch_and_extract`: cached pages short-circuit; an
HTTP error or exception returns `none` WITHOUT writing a cache entry;
only a successful extraction is saved. -/
def fetch_and_extract (url : List Char) (cache : List (List Char × WebDoc))
    (outcome : FetchOutcome) : Option WebDoc × List (List Char × WebDoc) :=
  match lookupA url cache with
  | some d => (some d, cache)
  | none =>
    match outcome with
    | .ok title text =>
      let doc : WebDoc := ⟨url, title, text⟩
      (some doc, (url, doc) :: cache)
    | .httpError => (none, cache)
    | .exn => (none, cache)

-- ---------------------------------------------------------------------
-- app.py (Edit API)
-- ---------------------------------------------------------------------

/-- A language block as seen by the Edit API: the four editable fields
plus the block's remaining keys, which the API never touches. -/
structure AppBlock where
  description : List Char
  ingredients : List Char
  precautions : List Char
  history : List HistEntry
  extra : List (List Char × List Char)
deriving DecidableEq

/-- The fresh `{}` created for a missing language. -/
def emptyAppBlock : AppBlock := ⟨[], [], [], [], []⟩

/-- A stored product record: its `i18n` mapping plus every other
top-level field (opaque to the API). -/
structure AppProduct where
  i18n : List (List Char × AppBlock)
  rest : List (List Char × List Char)
deriving DecidableEq

/-- Python dict assignment: replace in place, or append a new key. -/
def updateA {β : Type} (k : List Char) (v : β) : List (List Char × β) → List (List Char × β)
  | [] => [(k, v)]
  | (k', v') :: t => if k' = k then (k, v) :: t else (k', v') :: updateA k v t

/-- JSON body of `POST /api/product/<sku>`; `none` models an omitted key. -/
structure PostBody where
  lang : List Char
  description : Option (List Char)
  ingredients : Option (List Char)
  precautions : Option (List Char)
  history : Option (List HistEntry)
deriving DecidableEq

inductive ApiResult (α : Type) where
  | ok (v : α)
  | notFound (msg : List Char)
deriving DecidableEq

/-- Embedding of `app.get_product`: 404 with an error payload when the SKU's file
does not exist, else the full record. -/
def get_product (store : List (List Char × AppProduct)) (sku : List Char) :
    ApiResult AppProduct :=
  match lookupA sku store with
  | none => .notFound "SKU not found".toList
  | some p => .ok p

/-- Embedding of `app.save_product`: 404 when the file does not exist; otherwise the
target language block (created as `{}` if absent) gets all four editable
fields assigned from the body with defaults for omitted ones, and the
record is written back. -/
def save_product (store : List (List Char × AppProduct)) (sku : List Char)
    (body : PostBody) : ApiResult (List Char) × List (List Char × AppProduct) :=
  match lookupA sku store with
  | none => (.notFound "SKU not found".toList, store)
  | some p =>
    let blk := (lookupA body.lang p.i18n).getD emptyAppBlock
    let blk' : AppBlock :=
      { blk with
        description := body.description.getD []
        ingredients := body.ingredients.getD []
        precautions := body.precautions.getD []
        history := body.history.getD [] }
    let p' : AppProduct := { p with i18n := updateA body.lang blk' p.i18n }
    (.ok "saved".toList, updateA sku p' store)

-- ---------------------------------------------------------------------
-- Lemmas: characters and case folding
-- ---------------------------------------------------------------------

theorem isWordCharN_lowerN (n : Nat) : isWordCharN (lowerN n) = isWordCharN n := by
  unfold lowerN isWordCharN
  split
  · rw [Bool.eq_iff_iff]
    simp only [Bool.or_eq_true, Bool.and_eq_true, decide_eq_true_eq]
    omega
  · rfl

theorem chEq_isWordChar {c p : Char} (h : chEq c p = true) :
    isWordChar c = isWordChar p := by
  have h' : lowerN c.toNat = lowerN p.toNat := by
    simpa [chEq] using h
  unfold isWordChar
  rw [← isWordCharN_lowerN c.toNat, ← isWordCharN_lowerN p.toNat, h']

theorem chEq_false_of_not_word {c p : Char} (hp : isWordChar p = true)
    (hc : isWordChar c = false) : chEq c p = false := by
  cases h : chEq c p
  · rfl
  · have hcp := chEq_isWordChar h
    rw [hp, hc] at hcp
    cases hcp

-- ---------------------------------------------------------------------
-- Lemmas: takeWhile / dropWhile bookkeeping
-- ---------------------------------------------------------------------

theorem dropWhile_head_not {p : Char → Bool} :
    ∀ {l : List Char} {c : Char} {t : List Char},
      l.dropWhile p = c :: t → p c = false := by
  intro l
  induction l with
  | nil => intro c t h; cases h
  | cons a l ih =>
    intro c t h
    rw [List.dropWhile_cons] at h
    split at h
    · exact ih h
    · rename_i hpa
      cases h
      simpa using hpa

theorem drop_len_takeWhile (p : Char → Bool) (l : List Char) :
    l.drop (l.takeWhile p).length = l.dropWhile p := by
  nth_rewrite 2 [← List.takeWhile_append_dropWhile p l]
  exact List.drop_left _ _

theorem takeWhile_append_all {p : Char → Bool} :
    ∀ {l₁ : List Char} (l₂ : List Char), (∀ c ∈ l₁, p c = true) →
      (l₁ ++ l₂).takeWhile p = l₁ ++ l₂.takeWhile p := by
  intro l₁
  induction l₁ with
  | nil => intro l₂ _; rfl
  | cons a t ih =>
    intro l₂ h
    rw [List.cons_append, List.takeWhile_cons, h a (by simp), ih l₂ (fun c hc => h c (by simp [hc]))]
    rfl

theorem dropWhile_append_all {p : Char → Bool} :
    ∀ {l₁ : List Char} (l₂ : List Char), (∀ c ∈ l₁, p c = true) →
      (l₁ ++ l₂).dropWhile p = l₂.dropWhile p := by
  intro l₁
  induction l₁ with
  | nil => intro l₂ _; rfl
  | cons a t ih =>
    intro l₂ h
    rw [List.cons_append, List.dropWhile_cons, h a (by simp)]
    exact ih l₂ fun c hc => h c (by simp [hc])

theorem takeWhile_eq_nil_of_head {p : Char → Bool} :
    ∀ {l : List Char}, (∀ c t, l = c :: t → p c = false) → l.takeWhile p = [] := by
  intro l h
  cases l with
  | nil => rfl
  | cons c t => rw [List.takeWhile_cons, h c t rfl]; rfl

theorem dropWhile_eq_self_of_head {p : Char → Bool} :
    ∀ {l : List Char}, (∀ c t, l = c :: t → p c = false) → l.dropWhile p = l := by
  intro l h
  cases l with
  | nil => rfl
  | cons c t => rw [List.dropWhile_cons, h c t rfl]; rfl

-- ---------------------------------------------------------------------
-- Lemmas: case-insensitive prefix matching and word runs
-- ---------------------------------------------------------------------

theorem eqCI_length : ∀ {v w : List Char}, eqCI v w = true → v.length = w.length := by
  intro v
  induction v with
  | nil => intro w h; cases w with
    | nil => rfl
    | cons b bs => cases h
  | cons a as ih =>
    intro w h
    cases w with
    | nil => cases h
    | cons b bs =>
      rw [eqCI, Bool.and_eq_true] at h
      simp [ih h.2]

theorem startsWithCI_of_eqCI : ∀ {v w : List Char} (rest : List Char),
    eqCI v w = true → startsWithCI w (v ++ rest) = true := by
  intro v
  induction v with
  | nil => intro w rest h; cases w with
    | nil => rfl
    | cons b bs => cases h
  | cons a as ih =>
    intro w rest h
    cases w with
    | nil => cases h
    | cons b bs =>
      rw [eqCI, Bool.and_eq_true] at h
      rw [List.cons_append, startsWithCI, h.1, ih rest h.2]
      rfl

/-- A successful anchored match (`startsWithCI` + `\b` after) of an
all-word-character pattern describes exactly the leading word run. -/
theorem run_of_match : ∀ (ps : List Char) {cs : List Char},
    (∀ p ∈ ps, isWordChar p = true) →
    startsWithCI ps cs = true →
    boundaryAfter (cs.drop ps.length) = true →
    cs.takeWhile isWordChar = cs.take ps.length ∧
      eqCI (cs.take ps.length) ps = true ∧
      cs.dropWhile isWordChar = cs.drop ps.length := by
  intro ps
  induction ps with
  | nil =>
    intro cs _ _ hb
    refine ⟨?_, rfl, ?_⟩
    · exact takeWhile_eq_nil_of_head fun c t hct => by
        rw [hct] at hb
        simpa [boundaryAfter] using hb
    · exact dropWhile_eq_self_of_head fun c t hct => by
        rw [hct] at hb
        simpa [boundaryAfter] using hb
  | cons p ps ih =>
    intro cs hw hs hb
    cases cs with
    | nil => cases hs
    | cons c cs' =>
      rw [startsWithCI, Bool.and_eq_true] at hs
      have hcw : isWordChar c = true := by
        rw [chEq_isWordChar hs.1]
        exact hw p (by simp)
      have hb' : boundaryAfter (cs'.drop ps.length) = true := by
        simpa [List.drop] using hb
      obtain ⟨h1, h2, h3⟩ := ih (fun q hq => hw q (by simp [hq])) hs.2 hb'
      refine ⟨?_, ?_, ?_⟩
      · rw [List.takeWhile_cons, hcw]
        simp [h1, List.take]
      · simpa [List.take, eqCI, hs.1] using h2
      · rw [List.dropWhile_cons, hcw]
        simpa [List.drop] using h3

/-- Conversely: if the leading word run equals the pattern
case-insensitively, the anchored match succeeds. -/
theorem match_of_run {p0 : Char} {ps : List Char} {c : Char} {cs : List Char}
    (h : eqCI (c :: cs.takeWhile isWordChar) (p0 :: ps) = true) :
    startsWithCI (p0 :: ps) (c :: cs) = true ∧
      boundaryAfter (cs.drop ps.length) = true := by
  have hlen : (cs.takeWhile isWordChar).length = ps.length := by
    have := eqCI_length h
    simpa using this
  constructor
  · have := startsWithCI_of_eqCI (v := c :: cs.takeWhile isWordChar)
      (w := p0 :: ps) (cs.dropWhile isWordChar) h
    rwa [List.cons_append, List.takeWhile_append_dropWhile] at this
  · rw [← hlen, drop_len_takeWhile]
    cases hd : cs.dropWhile isWordChar with
    | nil => rfl
    | cons d t =>
      have := dropWhile_head_not hd
      simp [boundaryAfter, this]

-- ---------------------------------------------------------------------
-- Lemmas: the substitution scanner over homogeneous runs
-- ---------------------------------------------------------------------

theorem length_dropWhile_le (p : Char → Bool) (l : List Char) :
    (l.dropWhile p).length ≤ l.length := by
  induction l with
  | nil => simp [List.dropWhile]
  | cons a t ih =>
    rw [List.dropWhile_cons]
    split
    · exact Nat.le_succ_of_le ih
    · simp

theorem reSubWordAux_skip (p0 : Char) (ps repl : List Char) :
    ∀ (cs : List Char) (n : Nat),
      reSubWordAux p0 ps repl n true cs = reSubWordAux p0 ps repl 0 true (cs.drop n) := by
  intro cs
  induction cs with
  | nil => intro n; cases n <;> rfl
  | cons c cs' ih =>
    intro n
    cases n with
    | zero => rfl
    | succ m => simpa [reSubWordAux, List.drop] using ih m

theorem reSubWordAux_word_run (p0 : Char) (ps repl : List Char) :
    ∀ (ws zs : List Char), (∀ c ∈ ws, isWordChar c = true) →
      reSubWordAux p0 ps repl 0 true (ws ++ zs) =
        ws ++ reSubWordAux p0 ps repl 0 true zs := by
  intro ws
  induction ws with
  | nil => intro zs _; rfl
  | cons w ws' ih =>
    intro zs h
    have hw : isWordChar w = true := h w (by simp)
    rw [List.cons_append]
    simp only [reSubWordAux, Bool.not_true, Bool.false_and]
    rw [if_neg (by simp), hw, ih zs fun c hc => h c (by simp [hc])]
    simp

theorem reSubWordAux_sep_run (p0 : Char) (ps repl : List Char)
    (hp0 : isWordChar p0 = true) :
    ∀ (ss zs : List Char), (∀ c ∈ ss, isWordChar c = false) →
      reSubWordAux p0 ps repl 0 false (ss ++ zs) =
        ss ++ reSubWordAux p0 ps repl 0 false zs := by
  intro ss
  induction ss with
  | nil => intro zs _; rfl
  | cons s ss' ih =>
    intro zs h
    have hs : isWordChar s = false := h s (by simp)
    rw [List.cons_append]
    simp only [reSubWordAux, startsWithCI, chEq_false_of_not_word hp0 hs,
      Bool.false_and, Bool.and_false]
    rw [if_neg (by simp), hs, ih zs fun c hc => h c (by simp [hc])]
    simp

/-- Main correspondence: the character-level scanner equals the
token-level substitution (with the glue variant when the preceding
character is a word character). -/
theorem reSub_token_corr (p0 : Char) (ps repl : List Char)
    (hw : ∀ c ∈ p0 :: ps, isWordChar c = true) :
    ∀ (n : Nat) (cs : List Char), cs.length ≤ n →
      reSubWordAux p0 ps repl 0 false cs = subToks (p0 :: ps) repl (tokenize cs) ∧
      reSubWordAux p0 ps repl 0 true cs = glueSub (p0 :: ps) repl (tokenize cs) := by
  intro n
  induction n with
  | zero =>
    intro cs h
    have : cs = [] := List.eq_nil_of_length_eq_zero (Nat.le_zero.mp h)
    subst this
    constructor <;> simp [reSubWordAux, tokenize, subToks, detok, glueSub]
  | succ n ih =>
    intro cs hlen
    cases cs with
    | nil => constructor <;> simp [reSubWordAux, tokenize, subToks, detok, glueSub]
    | cons c cs' =>
      have hcs' : cs'.length ≤ n := by
        simp only [List.length_cons] at hlen
        omega
      cases hcw : isWordChar c with
      | false =>
        -- separator-run head
        set tw := cs'.takeWhile (fun x => !isWordChar x) with htw
        set rest := cs'.dropWhile (fun x => !isWordChar x) with hrest
        have htwall : ∀ x ∈ tw, isWordChar x = false := by
          intro x hx
          have := List.mem_takeWhile_imp hx
          simpa using this
        have hrlen : rest.length ≤ n :=
          le_trans (length_dropWhile_le _ _) hcs'
        have hih := ih rest hrlen
        have htok : tokenize (c :: cs') = Tok.s (c :: tw) :: tokenize rest := by
          simp only [tokenize, hcw, Bool.false_eq_true, if_false]
        have hstep : ∀ prevb,
            reSubWordAux p0 ps repl 0 prevb (c :: cs') =
              c :: reSubWordAux p0 ps repl 0 false cs' := by
          intro prevb
          simp only [reSubWordAux, startsWithCI,
            chEq_false_of_not_word (hw p0 (by simp)) hcw,
            Bool.false_and, Bool.and_false]
          rw [if_neg (by simp), hcw]
        have hrun : reSubWordAux p0 ps repl 0 false cs' =
            tw ++ reSubWordAux p0 ps repl 0 false rest := by
          conv_lhs => rw [← List.takeWhile_append_dropWhile (fun x => !isWordChar x) cs']
          exact reSubWordAux_sep_run p0 ps repl (hw p0 (by simp)) tw rest htwall
        have hmain : reSubWordAux p0 ps repl 0 false (c :: cs') =
            subToks (p0 :: ps) repl (tokenize (c :: cs')) := by
          rw [hstep, hrun, hih.1, htok]
          simp [subToks, detok, subTok, Tok.chars]
        refine ⟨hmain, ?_⟩
        rw [hstep true, hrun, hih.1, htok]
        simp [glueSub, subToks, detok, subTok, Tok.chars]
      | true =>
        -- word-run head
        set tw := cs'.takeWhile isWordChar with htw
        set rest := cs'.dropWhile isWordChar with hrest
        have htwall : ∀ x ∈ tw, isWordChar x = true := by
          intro x hx
          exact List.mem_takeWhile_imp hx
        have hrlen : rest.length ≤ n :=
          le_trans (length_dropWhile_le _ _) hcs'
        have hih := ih rest hrlen
        have htok : tokenize (c :: cs') = Tok.w (c :: tw) :: tokenize rest := by
          simp only [tokenize, hcw, if_true]
        have hrestglue : glueSub (p0 :: ps) repl (tokenize rest) =
            subToks (p0 :: ps) repl (tokenize rest) := by
          cases hr : rest with
          | nil => simp [tokenize, glueSub]
          | cons d ds =>
            have hd : isWordChar d = false := by
              have : cs'.dropWhile isWordChar = d :: ds := by rw [← hrest, hr]
              exact dropWhile_head_not this
            simp only [tokenize, hd, Bool.false_eq_true, if_false]
            rfl
        have htrue : reSubWordAux p0 ps repl 0 true (c :: cs') =
            (c :: tw) ++ subToks (p0 :: ps) repl (tokenize rest) := by
          have hstep : reSubWordAux p0 ps repl 0 true (c :: cs') =
              c :: reSubWordAux p0 ps repl 0 true cs' := by
            simp only [reSubWordAux, Bool.not_true, Bool.false_and]
            rw [if_neg (by simp), hcw]
          rw [hstep]
          conv_lhs => rw [← List.takeWhile_append_dropWhile isWordChar cs']
          rw [reSubWordAux_word_run p0 ps repl tw rest htwall, hih.2, hrestglue]
          rfl
        refine ⟨?_, ?_⟩
        · -- at a word boundary: match or no match
          cases heq : eqCI (c :: tw) (p0 :: ps) with
          | true =>
            obtain ⟨hs, hb⟩ := @match_of_run p0 ps c cs' (by rw [← htw]; exact heq)
            have hlen2 : tw.length = ps.length := by
              have := eqCI_length heq
              simpa using this
            have hdrop : cs'.drop ps.length = rest := by
              rw [← hlen2, htw, drop_len_takeWhile]
            have hcond : (!false && startsWithCI (p0 :: ps) (c :: cs') &&
                boundaryAfter (cs'.drop ps.length)) = true := by
              simp [hs, hb]
            simp only [reSubWordAux, if_pos hcond]
            rw [reSubWordAux_skip, hdrop, hih.2, hrestglue, htok]
            simp [subToks, detok, subTok, Tok.chars, heq]
          | false =>
            have hcond : (!false && startsWithCI (p0 :: ps) (c :: cs') &&
                boundaryAfter (cs'.drop ps.length)) = false := by
              cases hsw : startsWithCI (p0 :: ps) (c :: cs') with
              | false => simp
              | true =>
                cases hbd : boundaryAfter (cs'.drop ps.length) with
                | false => simp
                | true =>
                  exfalso
                  have hb' : boundaryAfter ((c :: cs').drop (p0 :: ps).length) = true := by
                    simpa [List.drop] using hbd
                  obtain ⟨h1, h2, _⟩ := run_of_match (p0 :: ps) hw hsw hb'
                  have : eqCI (c :: tw) (p0 :: ps) = true := by
                    have h1' : (c :: cs').takeWhile isWordChar = c :: tw := by
                      simp [List.takeWhile_cons, hcw]
                    rw [← h1', h1]
                    exact h2
                  rw [heq] at this
                  cases this
            have hstep : reSubWordAux p0 ps repl 0 false (c :: cs') =
                c :: reSubWordAux p0 ps repl 0 true cs' := by
              simp only [reSubWordAux]
              rw [if_neg (by rw [hcond]; simp), hcw]
            rw [hstep]
            conv_lhs => rw [← List.takeWhile_append_dropWhile isWordChar cs']
            rw [reSubWordAux_word_run p0 ps repl tw rest htwall, hih.2, hrestglue, htok]
            simp [subToks, detok, subTok, Tok.chars, heq]
        · rw [htrue, htok]
          rfl

theorem hasWordCI_word_run (p0 : Char) (ps : List Char) :
    ∀ (ws zs : List Char), (∀ c ∈ ws, isWordChar c = true) →
      hasWordCI p0 ps true (ws ++ zs) = hasWordCI p0 ps true zs := by
  intro ws
  induction ws with
  | nil => intro zs _; rfl
  | cons w ws' ih =>
    intro zs h
    rw [List.cons_append]
    simp only [hasWordCI, Bool.not_true, Bool.false_and, Bool.false_or]
    rw [h w (by simp), ih zs fun c hc => h c (by simp [hc])]

theorem hasWordCI_sep_run (p0 : Char) (ps : List Char)
    (hp0 : isWordChar p0 = true) :
    ∀ (ss zs : List Char), (∀ c ∈ ss, isWordChar c = false) →
      hasWordCI p0 ps false (ss ++ zs) = hasWordCI p0 ps false zs := by
  intro ss
  induction ss with
  | nil => intro zs _; rfl
  | cons s ss' ih =>
    intro zs h
    have hs : isWordChar s = false := h s (by simp)
    rw [List.cons_append]
    simp only [hasWordCI, startsWithCI, chEq_false_of_not_word hp0 hs,
      Bool.false_and, Bool.and_false, Bool.false_or]
    rw [hs, ih zs fun c hc => h c (by simp [hc])]

/-- Search `hasWordCI` equals the token-level search. -/
theorem hasW_token_corr (p0 : Char) (ps : List Char)
    (hw : ∀ c ∈ p0 :: ps, isWordChar c = true) :
    ∀ (n : Nat) (cs : List Char), cs.length ≤ n →
      hasWordCI p0 ps false cs = hasTok (p0 :: ps) (tokenize cs) ∧
      hasWordCI p0 ps true cs = glueHas (p0 :: ps) (tokenize cs) := by
  intro n
  induction n with
  | zero =>
    intro cs h
    have : cs = [] := List.eq_nil_of_length_eq_zero (Nat.le_zero.mp h)
    subst this
    constructor <;> simp [hasWordCI, tokenize, hasTok, glueHas]
  | succ n ih =>
    intro cs hlen
    cases cs with
    | nil => constructor <;> simp [hasWordCI, tokenize, hasTok, glueHas]
    | cons c cs' =>
      have hcs' : cs'.length ≤ n := by
        simp only [List.length_cons] at hlen
        omega
      cases hcw : isWordChar c with
      | false =>
        set tw := cs'.takeWhile (fun x => !isWordChar x) with htw
        set rest := cs'.dropWhile (fun x => !isWordChar x) with hrest
        have htwall : ∀ x ∈ tw, isWordChar x = false := by
          intro x hx
          have := List.mem_takeWhile_imp hx
          simpa using this
        have hih := ih rest (le_trans (length_dropWhile_le _ _) hcs')
        have htok : tokenize (c :: cs') = Tok.s (c :: tw) :: tokenize rest := by
          simp only [tokenize, hcw, Bool.false_eq_true, if_false]
        have hstep : ∀ prevb,
            hasWordCI p0 ps prevb (c :: cs') = hasWordCI p0 ps false cs' := by
          intro prevb
          simp only [hasWordCI, startsWithCI,
            chEq_false_of_not_word (hw p0 (by simp)) hcw,
            Bool.false_and, Bool.and_false, Bool.false_or]
          rw [hcw]
        have hrun : hasWordCI p0 ps false cs' = hasWordCI p0 ps false rest := by
          conv_lhs => rw [← List.takeWhile_append_dropWhile (fun x => !isWordChar x) cs']
          exact hasWordCI_sep_run p0 ps (hw p0 (by simp)) tw rest htwall
        constructor <;>
          · rw [hstep, hrun, hih.1, htok]
            simp [hasTok, glueHas]
      | true =>
        set tw := cs'.takeWhile isWordChar with htw
        set rest := cs'.dropWhile isWordChar with hrest
        have htwall : ∀ x ∈ tw, isWordChar x = true := fun x hx =>
          List.mem_takeWhile_imp hx
        have hih := ih rest (le_trans (length_dropWhile_le _ _) hcs')
        have htok : tokenize (c :: cs') = Tok.w (c :: tw) :: tokenize rest := by
          simp only [tokenize, hcw, if_true]
        have hrestglue : glueHas (p0 :: ps) (tokenize rest) =
            hasTok (p0 :: ps) (tokenize rest) := by
          cases hr : rest with
          | nil => simp [tokenize, glueHas]
          | cons d ds =>
            have hd : isWordChar d = false := by
              have : cs'.dropWhile isWordChar = d :: ds := by rw [← hrest, hr]
              exact dropWhile_head_not this
            simp only [tokenize, hd, Bool.false_eq_true, if_false]
            rfl
        have htail : hasWordCI p0 ps true cs' = hasTok (p0 :: ps) (tokenize rest) := by
          conv_lhs => rw [← List.takeWhile_append_dropWhile isWordChar cs']
          rw [hasWordCI_word_run p0 ps tw rest htwall, hih.2, hrestglue]
        have htrue : hasWordCI p0 ps true (c :: cs') =
            hasTok (p0 :: ps) (tokenize rest) := by
          simp only [hasWordCI, Bool.not_true, Bool.false_and, Bool.false_or]
          rw [hcw, htail]
        refine ⟨?_, ?_⟩
        · cases heq : eqCI (c :: tw) (p0 :: ps) with
          | true =>
            obtain ⟨hs, hb⟩ := @match_of_run p0 ps c cs' (by rw [← htw]; exact heq)
            have hcond : (!false && startsWithCI (p0 :: ps) (c :: cs') &&
                boundaryAfter (cs'.drop ps.length)) = true := by
              simp [hs, hb]
            rw [hasWordCI, hcond, htok]
            simp [hasTok, heq]
          | false =>
            have hcond : (!false && startsWithCI (p0 :: ps) (c :: cs') &&
                boundaryAfter (cs'.drop ps.length)) = false := by
              cases hsw : startsWithCI (p0 :: ps) (c :: cs') with
              | false => simp
              | true =>
                cases hbd : boundaryAfter (cs'.drop ps.length) with
                | false => simp
                | true =>
                  exfalso
                  have hb' : boundaryAfter ((c :: cs').drop (p0 :: ps).length) = true := by
                    simpa [List.drop] using hbd
                  obtain ⟨h1, h2, _⟩ := run_of_match (p0 :: ps) hw hsw hb'
                  have : eqCI (c :: tw) (p0 :: ps) = true := by
                    have h1' : (c :: cs').takeWhile isWordChar = c :: tw := by
                      simp [List.takeWhile_cons, hcw]
                    rw [← h1', h1]
                    exact h2
                  rw [heq] at this
                  cases this
            rw [hasWordCI, hcond, htok]
            simp only [Bool.false_or]
            rw [hcw, htail]
            simp [hasTok, heq]
        · rw [htrue, htok]
          rfl

-- ---------------------------------------------------------------------
-- Lemmas: the tokenizer round trip
-- ---------------------------------------------------------------------

theorem detok_nil : detok [] = [] := rfl

theorem detok_cons (t : Tok) (ts : List Tok) : detok (t :: ts) = t.chars ++ detok ts := rfl

theorem detok_tokenize_bounded :
    ∀ (n : Nat) (cs : List Char), cs.length ≤ n → detok (tokenize cs) = cs := by
  intro n
  induction n with
  | zero =>
    intro cs h
    have : cs = [] := List.eq_nil_of_length_eq_zero (Nat.le_zero.mp h)
    subst this
    simp [tokenize, detok]
  | succ n ih =>
    intro cs hlen
    cases cs with
    | nil => simp [tokenize, detok]
    | cons c cs' =>
      have hcs' : cs'.length ≤ n := by
        simp only [List.length_cons] at hlen
        omega
      cases hcw : isWordChar c with
      | true =>
        have hrest := ih (cs'.dropWhile isWordChar)
          (le_trans (length_dropWhile_le _ _) hcs')
        simp only [tokenize, hcw, if_true, detok_cons, Tok.chars]
        rw [hrest, List.cons_append, List.takeWhile_append_dropWhile]
      | false =>
        have hrest := ih (cs'.dropWhile (fun x => !isWordChar x))
          (le_trans (length_dropWhile_le _ _) hcs')
        simp only [tokenize, hcw, Bool.false_eq_true, if_false, detok_cons, Tok.chars]
        rw [hrest, List.cons_append, List.takeWhile_append_dropWhile]

theorem detok_tokenize (cs : List Char) : detok (tokenize cs) = cs :=
  detok_tokenize_bounded cs.length cs le_rfl

theorem toksOK_tokenize_bounded :
    ∀ (n : Nat) (cs : List Char), cs.length ≤ n → ToksOK (tokenize cs) := by
  intro n
  induction n with
  | zero =>
    intro cs h
    have : cs = [] := List.eq_nil_of_length_eq_zero (Nat.le_zero.mp h)
    subst this
    constructor
    · intro t ht
      simp [tokenize] at ht
    · simp [tokenize]
  | succ n ih =>
    intro cs hlen
    cases cs with
    | nil =>
      constructor
      · intro t ht
        simp [tokenize] at ht
      · simp [tokenize]
    | cons c cs' =>
      have hcs' : cs'.length ≤ n := by
        simp only [List.length_cons] at hlen
        omega
      cases hcw : isWordChar c with
      | true =>
        have hrest := ih (cs'.dropWhile isWordChar)
          (le_trans (length_dropWhile_le _ _) hcs')
        have htok : tokenize (c :: cs') =
            Tok.w (c :: cs'.takeWhile isWordChar) :: tokenize (cs'.dropWhile isWordChar) := by
          simp only [tokenize, hcw, if_true]
        rw [htok]
        constructor
        · intro t ht
          rcases List.mem_cons.mp ht with h | h
          · subst h
            refine ⟨by simp, ?_⟩
            intro x hx
            rcases List.mem_cons.mp hx with h | h
            · subst h; exact hcw
            · exact List.mem_takeWhile_imp h
          · exact hrest.1 t h
        · rw [List.chain'_cons']
          refine ⟨?_, hrest.2⟩
          intro b hb
          cases hr : cs'.dropWhile isWordChar with
          | nil => rw [hr] at hb; simp [tokenize] at hb
          | cons d ds =>
            have hd : isWordChar d = false := dropWhile_head_not hr
            rw [hr] at hb
            simp only [tokenize, hd, Bool.false_eq_true, if_false,
              List.head?_cons, Option.mem_some_iff] at hb
            subst hb
            simp [Tok.isWordTok]
      | false =>
        have hrest := ih (cs'.dropWhile (fun x => !isWordChar x))
          (le_trans (length_dropWhile_le _ _) hcs')
        have htok : tokenize (c :: cs') =
            Tok.s (c :: cs'.takeWhile (fun x => !isWordChar x)) ::
              tokenize (cs'.dropWhile (fun x => !isWordChar x)) := by
          simp only [tokenize, hcw, Bool.false_eq_true, if_false]
        rw [htok]
        constructor
        · intro t ht
          rcases List.mem_cons.mp ht with h | h
          · subst h
            refine ⟨by simp, ?_⟩
            intro x hx
            rcases List.mem_cons.mp hx with h | h
            · subst h; exact hcw
            · have := List.mem_takeWhile_imp h
              simpa using this
          · exact hrest.1 t h
        · rw [List.chain'_cons']
          refine ⟨?_, hrest.2⟩
          intro b hb
          cases hr : cs'.dropWhile (fun x => !isWordChar x) with
          | nil => rw [hr] at hb; simp [tokenize] at hb
          | cons d ds =>
            have hd : isWordChar d = true := by
              have := dropWhile_head_not hr
              simpa using this
            rw [hr] at hb
            simp only [tokenize, hd, if_true, List.head?_cons,
              Option.mem_some_iff] at hb
            subst hb
            simp [Tok.isWordTok]

theorem toksOK_tokenize (cs : List Char) : ToksOK (tokenize cs) :=
  toksOK_tokenize_bounded cs.length cs le_rfl

theorem toksOK_tail {t : Tok} {ts : List Tok} (h : ToksOK (t :: ts)) : ToksOK ts :=
  ⟨fun x hx => h.1 x (List.mem_cons_of_mem t hx), (List.chain'_cons'.mp h.2).2⟩

/-- Reassembling a well-formed token list and re-tokenizing recovers it. -/
theorem tokenize_detok : ∀ {ts : List Tok}, ToksOK ts → tokenize (detok ts) = ts := by
  intro ts
  induction ts with
  | nil => intro _; simp [detok, tokenize]
  | cons t ts' ih =>
    intro h
    have htail := toksOK_tail h
    have hX : detok ts' = [] ∨
        ∃ d ds, detok ts' = d :: ds ∧ (Tok.isWordTok t = true → isWordChar d = false) ∧
          (Tok.isWordTok t = false → isWordChar d = true) := by
      cases ts' with
      | nil => exact Or.inl rfl
      | cons u ts'' =>
        have hu : TokOK u := h.1 u (by simp)
        have hrel : t.isWordTok ≠ u.isWordTok := by
          have := (List.chain'_cons'.mp h.2).1
          exact this u (by simp)
        cases u with
        | w v =>
          obtain ⟨hne, hall⟩ := hu
          cases v with
          | nil => exact absurd rfl hne
          | cons d ds' =>
            refine Or.inr ⟨d, ds' ++ detok ts'', by simp [detok_cons, Tok.chars], ?_, ?_⟩
            · intro hT
              exfalso
              apply hrel
              rw [hT]
              rfl
            · intro _
              exact hall d (by simp)
        | s v =>
          obtain ⟨hne, hall⟩ := hu
          cases v with
          | nil => exact absurd rfl hne
          | cons d ds' =>
            refine Or.inr ⟨d, ds' ++ detok ts'', by simp [detok_cons, Tok.chars], ?_, ?_⟩
            · intro _
              exact hall d (by simp)
            · intro hT
              exfalso
              apply hrel
              rw [hT]
              rfl
    cases t with
    | w v =>
      obtain ⟨hne, hall⟩ := h.1 (Tok.w v) (by simp)
      cases v with
      | nil => exact absurd rfl hne
      | cons c v' =>
        have hcw : isWordChar c = true := hall c (by simp)
        have hv' : ∀ x ∈ v', isWordChar x = true := fun x hx => hall x (by simp [hx])
        have hXhead : ∀ e et, detok ts' = e :: et → isWordChar e = false := by
          intro e et he
          rcases hX with h0 | ⟨d, ds, hd, hrel, _⟩
          · rw [h0] at he; cases he
          · rw [hd] at he
            cases he
            exact hrel rfl
        have htake : (v' ++ detok ts').takeWhile isWordChar = v' := by
          rw [takeWhile_append_all (detok ts') hv',
            takeWhile_eq_nil_of_head hXhead, List.append_nil]
        have hdrop : (v' ++ detok ts').dropWhile isWordChar = detok ts' := by
          rw [dropWhile_append_all (detok ts') hv',
            dropWhile_eq_self_of_head hXhead]
        rw [detok_cons]
        simp only [Tok.chars, List.cons_append]
        rw [tokenize]
        rw [if_pos hcw, htake, hdrop, ih htail]
    | s v =>
      obtain ⟨hne, hall⟩ := h.1 (Tok.s v) (by simp)
      cases v with
      | nil => exact absurd rfl hne
      | cons c v' =>
        have hcw : isWordChar c = false := hall c (by simp)
        have hv' : ∀ x ∈ v', (!isWordChar x) = true := by
          intro x hx
          rw [hall x (by simp [hx])]
          rfl
        have hXhead : ∀ e et, detok ts' = e :: et → (!isWordChar e) = false := by
          intro e et he
          rcases hX with h0 | ⟨d, ds, hd, _, hrel⟩
          · rw [h0] at he; cases he
          · rw [hd] at he
            cases he
            rw [hrel rfl]
            rfl
        have htake : (v' ++ detok ts').takeWhile (fun x => !isWordChar x) = v' := by
          rw [takeWhile_append_all (detok ts') hv',
            takeWhile_eq_nil_of_head hXhead, List.append_nil]
        have hdrop : (v' ++ detok ts').dropWhile (fun x => !isWordChar x) = detok ts' := by
          rw [dropWhile_append_all (detok ts') hv',
            dropWhile_eq_self_of_head hXhead]
        rw [detok_cons]
        simp only [Tok.chars, List.cons_append]
        rw [tokenize]
        rw [if_neg (by simp [hcw]), htake, hdrop, ih htail]

-- ---------------------------------------------------------------------
-- Lemmas: token maps preserve well-formedness; composition corollaries
-- ---------------------------------------------------------------------

theorem subTok_kind (pat repl : List Char) (t : Tok) :
    (subTok pat repl t).isWordTok = t.isWordTok := by
  cases t with
  | w v =>
    simp only [subTok]
    split <;> rfl
  | s v => rfl

theorem toksOK_map_subTok (pat repl : List Char) (hrne : repl ≠ [])
    (hrw : ∀ c ∈ repl, isWordChar c = true) {ts : List Tok} (h : ToksOK ts) :
    ToksOK (ts.map (subTok pat repl)) := by
  constructor
  · intro t ht
    rcases List.mem_map.mp ht with ⟨u, hu, rfl⟩
    cases u with
    | w v =>
      simp only [subTok]
      split
      · exact ⟨hrne, hrw⟩
      · exact h.1 (Tok.w v) hu
    | s v => exact h.1 (Tok.s v) hu
  · rw [List.chain'_map]
    refine List.Chain'.imp ?_ h.2
    intro a b hab
    rw [subTok_kind, subTok_kind]
    exact hab

theorem tokenize_subToks (pat repl : List Char) (hrne : repl ≠ [])
    (hrw : ∀ c ∈ repl, isWordChar c = true) (ts : List Tok) (h : ToksOK ts) :
    tokenize (subToks pat repl ts) = ts.map (subTok pat repl) := by
  rw [subToks]
  exact tokenize_detok (toksOK_map_subTok pat repl hrne hrw h)

theorem reSubWord_tokens (p0 : Char) (ps repl : List Char)
    (hw : ∀ c ∈ p0 :: ps, isWordChar c = true) (cs : List Char) :
    reSubWord p0 ps repl cs = subToks (p0 :: ps) repl (tokenize cs) :=
  (reSub_token_corr p0 ps repl hw cs.length cs le_rfl).1

theorem hasWordCI_tokens (p0 : Char) (ps : List Char)
    (hw : ∀ c ∈ p0 :: ps, isWordChar c = true) (cs : List Char) :
    hasWordCI p0 ps false cs = hasTok (p0 :: ps) (tokenize cs) :=
  (hasW_token_corr p0 ps hw cs.length cs le_rfl).1

-- ---------------------------------------------------------------------
-- Lemmas: the water fix at the token level
-- ---------------------------------------------------------------------

theorem word_sparkling : ∀ c ∈ 's' :: "parkling".toList, isWordChar c = true := by
  decide

theorem word_still : ∀ c ∈ 's' :: "till".toList, isWordChar c = true := by
  decide

theorem still_repl_ok : ("still".toList ≠ [] ∧ ∀ c ∈ "still".toList, isWordChar c = true) := by
  decide

theorem sparkling_repl_ok :
    ("sparkling".toList ≠ [] ∧ ∀ c ∈ "sparkling".toList, isWordChar c = true) := by
  decide

/-- Rewriting `fix_water_description` as a token map, uniformly over the four
title-condition cases. -/
theorem fix_water_tokens (desc title : List Char) :
    fix_water_description desc title =
      detok ((tokenize desc).map fun t =>
        (fun u => if containsL (toUpperL title) "SPARKLING".toList ||
            containsL (toUpperL title) "CARBONATED".toList ||
            containsL (toUpperL title) "GREEN".toList then
          subTok "still".toList "sparkling".toList u else u)
        ((fun u => if containsL (toUpperL title) "NON-CARBONATED".toList ||
            containsL (toUpperL title) "STILL".toList ||
            containsL (toUpperL title) "BLUE".toList then
          subTok "sparkling".toList "still".toList u else u) t)) := by
  rw [fix_water_description]
  cases hm1 : (containsL (toUpperL title) "NON-CARBONATED".toList ||
      containsL (toUpperL title) "STILL".toList ||
      containsL (toUpperL title) "BLUE".toList) with
  | true =>
    cases hm2 : (containsL (toUpperL title) "SPARKLING".toList ||
        containsL (toUpperL title) "CARBONATED".toList ||
        containsL (toUpperL title) "GREEN".toList) with
    | true =>
      simp only [hm1, hm2, if_true]
      rw [reSubWord_tokens 's' "parkling".toList "still".toList word_sparkling desc]
      rw [show ('s' :: "parkling".toList) = "sparkling".toList from rfl]
      rw [reSubWord_tokens 's' "till".toList "sparkling".toList word_still]
      rw [show ('s' :: "till".toList) = "still".toList from rfl]
      rw [tokenize_subToks "sparkling".toList "still".toList still_repl_ok.1
        still_repl_ok.2 (tokenize desc) (toksOK_tokenize desc)]
      rw [subToks, List.map_map]
      rfl
    | false =>
      simp only [hm1, hm2, if_true, Bool.false_eq_true, if_false]
      rw [reSubWord_tokens 's' "parkling".toList "still".toList word_sparkling desc]
      rw [show ('s' :: "parkling".toList) = "sparkling".toList from rfl]
      rw [subToks]
  | false =>
    cases hm2 : (containsL (toUpperL title) "SPARKLING".toList ||
        containsL (toUpperL title) "CARBONATED".toList ||
        containsL (toUpperL title) "GREEN".toList) with
    | true =>
      simp only [hm1, hm2, if_true, Bool.false_eq_true, if_false]
      rw [reSubWord_tokens 's' "till".toList "sparkling".toList word_still desc]
      rw [show ('s' :: "till".toList) = "still".toList from rfl]
      rw [subToks]
    | false =>
      simp only [hm1, hm2, Bool.false_eq_true, if_false]
      rw [← detok_tokenize desc]
      rw [tokenize_detok (toksOK_tokenize desc)]
      simp

theorem eqCI_still_spark : eqCI "still".toList "sparkling".toList = false := by decide

theorem eqCI_spark_still : eqCI "sparkling".toList "still".toList = false := by decide

theorem eqCI_still_still : eqCI "still".toList "still".toList = true := by decide

theorem eqCI_spark_spark : eqCI "sparkling".toList "sparkling".toList = true := by decide

theorem subTok_g_idem (t : Tok) :
    subTok "sparkling".toList "still".toList (subTok "sparkling".toList "still".toList t) =
      subTok "sparkling".toList "still".toList t := by
  cases t with
  | s v => rfl
  | w v =>
    cases h : eqCI v ("sparkling".toList) with
    | true =>
      simp only [subTok]
      rw [h]
      simp only [if_true]
      decide
    | false =>
      simp only [subTok]
      rw [h]
      simp only [Bool.false_eq_true, if_false]
      rw [h]
      simp only [Bool.false_eq_true, if_false]

theorem subTok_f_idem (t : Tok) :
    subTok "still".toList "sparkling".toList (subTok "still".toList "sparkling".toList t) =
      subTok "still".toList "sparkling".toList t := by
  cases t with
  | s v => rfl
  | w v =>
    cases h : eqCI v ("still".toList) with
    | true =>
      simp only [subTok]
      rw [h]
      simp only [if_true]
      decide
    | false =>
      simp only [subTok]
      rw [h]
      simp only [Bool.false_eq_true, if_false]
      rw [h]
      simp only [Bool.false_eq_true, if_false]

theorem subTok_fg_idem (t : Tok) :
    subTok "still".toList "sparkling".toList (subTok "sparkling".toList "still".toList
      (subTok "still".toList "sparkling".toList (subTok "sparkling".toList "still".toList t))) =
      subTok "still".toList "sparkling".toList (subTok "sparkling".toList "still".toList t) := by
  cases t with
  | s v => rfl
  | w v =>
    cases h1 : eqCI v ("sparkling".toList) with
    | true =>
      simp only [subTok, h1, eqCI_spark_spark, eqCI_still_still, eqCI_spark_still,
        eqCI_still_spark, if_true, Bool.false_eq_true, if_false]
    | false =>
      cases h2 : eqCI v ("still".toList) with
      | true =>
        simp only [subTok, h1, h2, eqCI_spark_spark, eqCI_still_still, eqCI_spark_still,
          eqCI_still_spark, if_true, Bool.false_eq_true, if_false]
      | false =>
        simp only [subTok, h1, h2, eqCI_spark_spark, eqCI_still_still, eqCI_spark_still,
          eqCI_still_spark, if_true, Bool.false_eq_true, if_false]

/-- The Water-description correction is idempotent. -/
theorem fix_water_idem (desc title : List Char) :
    fix_water_description (fix_water_description desc title) title =
      fix_water_description desc title := by
  rw [fix_water_tokens (fix_water_description desc title) title, fix_water_tokens desc title]
  cases hm1 : (containsL (toUpperL title) "NON-CARBONATED".toList ||
      containsL (toUpperL title) "STILL".toList ||
      containsL (toUpperL title) "BLUE".toList) with
  | true =>
    cases hm2 : (containsL (toUpperL title) "SPARKLING".toList ||
        containsL (toUpperL title) "CARBONATED".toList ||
        containsL (toUpperL title) "GREEN".toList) with
    | true =>
      simp only [if_true]
      have hOK : ToksOK ((tokenize desc).map fun t =>
          subTok "still".toList "sparkling".toList
            (subTok "sparkling".toList "still".toList t)) := by
        rw [show (fun t => subTok "still".toList "sparkling".toList
            (subTok "sparkling".toList "still".toList t)) =
          subTok "still".toList "sparkling".toList ∘
            subTok "sparkling".toList "still".toList from rfl]
        rw [← List.map_map]
        exact toksOK_map_subTok _ _ sparkling_repl_ok.1 sparkling_repl_ok.2
          (toksOK_map_subTok _ _ still_repl_ok.1 still_repl_ok.2 (toksOK_tokenize desc))
      rw [tokenize_detok hOK, List.map_map]
      congr 1
      apply List.map_congr_left
      intro t _
      exact subTok_fg_idem t
    | false =>
      simp only [if_true, Bool.false_eq_true, if_false]
      have hOK : ToksOK ((tokenize desc).map
          (subTok "sparkling".toList "still".toList)) :=
        toksOK_map_subTok _ _ still_repl_ok.1 still_repl_ok.2 (toksOK_tokenize desc)
      rw [tokenize_detok hOK, List.map_map]
      congr 1
      apply List.map_congr_left
      intro t _
      exact subTok_g_idem t
  | false =>
    cases hm2 : (containsL (toUpperL title) "SPARKLING".toList ||
        containsL (toUpperL title) "CARBONATED".toList ||
        containsL (toUpperL title) "GREEN".toList) with
    | true =>
      simp only [if_true, Bool.false_eq_true, if_false]
      have hOK : ToksOK ((tokenize desc).map
          (subTok "still".toList "sparkling".toList)) :=
        toksOK_map_subTok _ _ sparkling_repl_ok.1 sparkling_repl_ok.2 (toksOK_tokenize desc)
      rw [tokenize_detok hOK, List.map_map]
      congr 1
      apply List.map_congr_left
      intro t _
      exact subTok_f_idem t
    | false =>
      simp only [Bool.false_eq_true, if_false]
      simp only [List.map_id']
      rw [tokenize_detok (toksOK_tokenize desc)]

-- ---------------------------------------------------------------------
-- Lemmas: post_qc idempotence
-- ---------------------------------------------------------------------

theorem is_relevant_source_empty (brand : List Char) :
    is_relevant_source [] brand = false := rfl

theorem clean_sources_idem (brand : List Char) (ss : List Source) :
    clean_sources brand (clean_sources brand ss) = clean_sources brand ss := by
  cases h0 : ss.isEmpty with
  | true =>
    have h1 : clean_sources brand ss = ss := by
      rw [clean_sources, if_pos h0]
    rw [h1, h1]
  | false =>
    cases hc : (ss.filter fun s => is_relevant_source s.url brand).isEmpty with
    | true =>
      have h1 : clean_sources brand ss = [placeholderSource] := by
        rw [clean_sources, if_neg (by simp [h0])]
        simp only [hc, if_true]
      have hf : ([placeholderSource].filter fun s => is_relevant_source s.url brand) = [] := by
        simp [List.filter_cons, placeholderSource, is_relevant_source_empty]
      have h2 : clean_sources brand [placeholderSource] = [placeholderSource] := by
        rw [clean_sources, if_neg (by simp)]
        simp only [hf, List.isEmpty_nil, if_true]
      rw [h1, h2]
    | false =>
      have hmem : ∀ a ∈ ss.filter (fun s => is_relevant_source s.url brand),
          is_relevant_source a.url brand = true := by
        intro a ha
        exact (List.mem_filter.mp ha).2
      have h1 : clean_sources brand ss =
          ss.filter fun s => is_relevant_source s.url brand := by
        rw [clean_sources, if_neg (by simp [h0])]
        simp only [hc, Bool.false_eq_true, if_false]
      have h2 : clean_sources brand (ss.filter fun s => is_relevant_source s.url brand) =
          ss.filter fun s => is_relevant_source s.url brand := by
        rw [clean_sources, if_neg (by simp [hc])]
        simp only [List.filter_eq_self.mpr hmem, hc, Bool.false_eq_true, if_false]
      rw [h1, h2]

/-- Post-QC is idempotent on every record. -/
theorem post_qc_idem (r : QCRec) : post_qc (post_qc r) = post_qc r := by
  by_cases hcat : r.category = ['W', 'a', 't', 'e', 'r']
  · simp [post_qc, hcat, fix_water_idem, clean_sources_idem]
  · simp [post_qc, hcat, clean_sources_idem]

-- ---------------------------------------------------------------------
-- Lemmas: premium_pass second-run behaviour
-- ---------------------------------------------------------------------

theorem enhance_history_stable (h : List HistEntry) (b c co : List Char) :
    enhance_history (enhance_history h b c co) b c co = enhance_history h b c co := by
  by_cases h0 : 3 ≤ h.length
  · have h1 : enhance_history h b c co = h := by
      rw [enhance_history, if_pos (by simp [h0])]
    rw [h1, h1]
  · cases h with
    | nil =>
      have h1 : enhance_history [] b c co = [] := by
        rw [enhance_history, if_pos (by simp)]
      rw [h1, h1]
    | cons e es =>
      have ht : (enhance_history (e :: es) b c co).length = 3 := by
        rw [enhance_history, if_neg (by
          simp only [List.isEmpty_cons, Bool.false_or, decide_eq_true_eq]
          exact h0)]
        rfl
      rw [enhance_history, if_pos (by simp [ht])]

theorem enhance_description_fix (d cat : List Char)
    (h : d.isEmpty = true ∨ 180 < d.length) :
    enhance_description d cat = d := by
  rcases h with h | h
  · rw [enhance_description, if_pos h]
  · have hne : d.isEmpty = false := by
      cases d
      · simp at h
      · rfl
    rw [enhance_description, if_neg (by simp [hne]), if_pos h]

theorem enhance_ingredients_fix (d : List Char)
    (h : d.isEmpty = true ∨ 60 < d.length) :
    enhance_ingredients d = d := by
  rcases h with h | h
  · rw [enhance_ingredients, if_pos h]
  · have hne : d.isEmpty = false := by
      cases d
      · simp at h
      · rfl
    rw [enhance_ingredients, if_neg (by simp [hne]), if_pos h]

-- ---------------------------------------------------------------------
-- Lemmas: token-level effect of the still -> sparkling substitution
-- ---------------------------------------------------------------------

theorem eqCI_still_not_spark {v : List Char} (h : eqCI v ("still".toList) = true) :
    eqCI v ("sparkling".toList) = false := by
  cases h2 : eqCI v ("sparkling".toList) with
  | false => rfl
  | true =>
    exfalso
    have l1 := eqCI_length h
    have l2 := eqCI_length h2
    simp only [String.toList] at l1 l2
    rw [l1] at l2
    simp at l2

theorem hasTok_still_map_f (ts : List Tok) :
    hasTok "still".toList (ts.map (subTok "still".toList "sparkling".toList)) = false := by
  rw [hasTok, List.any_eq_false]
  intro t ht
  rcases List.mem_map.mp ht with ⟨u, _, rfl⟩
  cases u with
  | s v => simp [subTok]
  | w v =>
    cases h : eqCI v ("still".toList) with
    | true =>
      have hsub : subTok "still".toList "sparkling".toList (Tok.w v) =
          Tok.w ("sparkling".toList) := by
        simp only [subTok]
        rw [h]
        simp only [if_true]
      rw [hsub]
      decide
    | false =>
      have hsub : subTok "still".toList "sparkling".toList (Tok.w v) = Tok.w v := by
        simp only [subTok]
        rw [h]
        simp only [Bool.false_eq_true, if_false]
      rw [hsub]
      show ¬(eqCI v ("still".toList) = true)
      rw [h]
      simp

theorem hasTok_spark_map_f (ts : List Tok)
    (h : hasTok "still".toList ts = true) :
    hasTok "sparkling".toList (ts.map (subTok "still".toList "sparkling".toList)) = true := by
  rw [hasTok, List.any_eq_true] at h ⊢
  obtain ⟨t, ht, hp⟩ := h
  cases t with
  | s v => exact Bool.noConfusion hp
  | w v =>
    have hp' : eqCI v ("still".toList) = true := hp
    refine ⟨subTok "still".toList "sparkling".toList (Tok.w v), List.mem_map_of_mem _ ht, ?_⟩
    have hsub : subTok "still".toList "sparkling".toList (Tok.w v) =
        Tok.w ("sparkling".toList) := by
      simp only [subTok]
      rw [hp']
      simp only [if_true]
    rw [hsub]
    exact eqCI_spark_spark

theorem hasTok_still_map_g (ts : List Tok)
    (h : hasTok "still".toList ts = true) :
    hasTok "still".toList (ts.map (subTok "sparkling".toList "still".toList)) = true := by
  rw [hasTok, List.any_eq_true] at h ⊢
  obtain ⟨t, ht, hp⟩ := h
  cases t with
  | s v => exact Bool.noConfusion hp
  | w v =>
    have hp' : eqCI v ("still".toList) = true := hp
    refine ⟨subTok "sparkling".toList "still".toList (Tok.w v), List.mem_map_of_mem _ ht, ?_⟩
    have hsub : subTok "sparkling".toList "still".toList (Tok.w v) = Tok.w v := by
      simp only [subTok]
      rw [eqCI_still_not_spark hp']
      simp only [Bool.false_eq_true, if_false]
    rw [hsub]
    exact hp'

/-- After the water fix, a description that had a whole word "still"
(and a title marking it sparkling) has a whole word "sparkling" and no
whole word "still" left. -/
theorem fix_water_still_gone (desc title : List Char)
    (hm2 : (containsL (toUpperL title) "SPARKLING".toList ||
      containsL (toUpperL title) "CARBONATED".toList ||
      containsL (toUpperL title) "GREEN".toList) = true)
    (hst : hasWordCI 's' "till".toList false desc = true) :
    hasWordCI 's' "till".toList false (fix_water_description desc title) = false ∧
      hasWordCI 's' "parkling".toList false (fix_water_description desc title) = true := by
  have hstT : hasTok "still".toList (tokenize desc) = true := by
    rw [← hst, hasWordCI_tokens 's' "till".toList word_still desc]
    rfl
  rw [fix_water_tokens desc title]
  cases hm1 : (containsL (toUpperL title) "NON-CARBONATED".toList ||
      containsL (toUpperL title) "STILL".toList ||
      containsL (toUpperL title) "BLUE".toList) with
  | true =>
    simp only [hm1, hm2, if_true]
    have hcomp : ((tokenize desc).map fun t =>
        subTok "still".toList "sparkling".toList
          (subTok "sparkling".toList "still".toList t)) =
        ((tokenize desc).map (subTok "sparkling".toList "still".toList)).map
          (subTok "still".toList "sparkling".toList) := by
      rw [List.map_map]
      rfl
    have hOK : ToksOK (((tokenize desc).map (subTok "sparkling".toList "still".toList)).map
        (subTok "still".toList "sparkling".toList)) :=
      toksOK_map_subTok _ _ sparkling_repl_ok.1 sparkling_repl_ok.2
        (toksOK_map_subTok _ _ still_repl_ok.1 still_repl_ok.2 (toksOK_tokenize desc))
    rw [hcomp]
    constructor
    · rw [hasWordCI_tokens 's' "till".toList word_still, tokenize_detok hOK]
      exact hasTok_still_map_f _
    · rw [hasWordCI_tokens 's' "parkling".toList word_sparkling, tokenize_detok hOK]
      exact hasTok_spark_map_f _ (hasTok_still_map_g _ hstT)
  | false =>
    simp only [hm1, hm2, if_true, Bool.false_eq_true, if_false]
    have hOK : ToksOK ((tokenize desc).map (subTok "still".toList "sparkling".toList)) :=
      toksOK_map_subTok _ _ sparkling_repl_ok.1 sparkling_repl_ok.2 (toksOK_tokenize desc)
    constructor
    · rw [hasWordCI_tokens 's' "till".toList word_still, tokenize_detok hOK]
      exact hasTok_still_map_f _
    · rw [hasWordCI_tokens 's' "parkling".toList word_sparkling, tokenize_detok hOK]
      exact hasTok_spark_map_f _ hstT

-- ---------------------------------------------------------------------
-- Lemmas: association lists (Edit API store)
-- ---------------------------------------------------------------------

theorem lookupA_updateA_self {β : Type} (k : List Char) (v : β) :
    ∀ (m : List (List Char × β)), lookupA k (updateA k v m) = some v := by
  intro m
  induction m with
  | nil => simp [updateA, lookupA]
  | cons e t ih =>
    rcases e with ⟨k', v'⟩
    by_cases h : k' = k
    · simp [updateA, lookupA, h]
    · simp only [updateA, if_neg h, lookupA]
      exact ih

theorem lookupA_updateA_other {β : Type} {k k₂ : List Char} (hne : k₂ ≠ k) (v : β) :
    ∀ (m : List (List Char × β)), lookupA k₂ (updateA k v m) = lookupA k₂ m := by
  intro m
  induction m with
  | nil => simp [updateA, lookupA, Ne.symm hne]
  | cons e t ih =>
    rcases e with ⟨k', v'⟩
    by_cases h : k' = k
    · subst h
      simp [updateA, lookupA, Ne.symm hne]
    · simp only [updateA, if_neg h, lookupA]
      by_cases h2 : k' = k₂
      · simp [h2]
      · rw [if_neg h2, if_neg h2]
        exact ih

-- ---------------------------------------------------------------------
-- Lemmas: merge fields
-- ---------------------------------------------------------------------

theorem merge_field_keep {α : Type} (old : Option (List α)) {new : Option (List α)}
    (h : new = none ∨ new = some []) : merge_field old new = old := by
  rcases h with h | h <;> subst h
  · rfl
  · simp [merge_field]

theorem merge_field_overwrite {α : Type} [DecidableEq α] (old new : Option (List α))
    (h : merge_field old new ≠ old) :
    ∃ v, new = some v ∧ v ≠ [] ∧ old ≠ some v ∧ merge_field old new = some v := by
  cases new with
  | none => exact absurd rfl h
  | some v =>
    cases hv : v.isEmpty with
    | true =>
      exfalso
      apply h
      simp [merge_field, hv]
    | false =>
      have hm : merge_field old (some v) = some v := by
        simp [merge_field, hv]
      refine ⟨v, rfl, by simpa using hv, ?_, hm⟩
      intro hov
      apply h
      rw [hm, hov]

-- ---------------------------------------------------------------------
-- Lemmas: sanitizer identity on clean strings
-- ---------------------------------------------------------------------

theorem dropWhile_id_of_none {p : Char → Bool} :
    ∀ {l : List Char}, (∀ c ∈ l, p c = false) → l.dropWhile p = l := by
  intro l h
  cases l with
  | nil => rfl
  | cons c t => rw [List.dropWhile_cons, h c (by simp)]; rfl

theorem stripL_id {v : List Char} (h : ∀ c ∈ v, isSpaceB c = false) : stripL v = v := by
  rw [stripL, dropWhile_id_of_none h, dropWhile_id_of_none, List.reverse_reverse]
  intro c hc
  exact h c (List.mem_reverse.mp hc)

theorem replaceAllAux_id (p0 : Char) (ps repl : List Char) :
    ∀ {v : List Char}, containsL v (p0 :: ps) = false →
      replaceAllAux p0 ps repl 0 v = v := by
  intro v
  induction v with
  | nil => intro _; rfl
  | cons c t ih =>
    intro h
    rw [containsL, Bool.or_eq_false_iff] at h
    rw [replaceAllAux, if_neg (by simp [h.1])]
    rw [ih h.2]

theorem runSubAux_id (p : Char → Bool) (r : Char) :
    ∀ {v : List Char}, (∀ c ∈ v, p c = false) → runSubAux p r false v = v := by
  intro v
  induction v with
  | nil => intro _; rfl
  | cons c t ih =>
    intro h
    rw [runSubAux, if_neg (by simp [h c (by simp)])]
    rw [ih fun x hx => h x (by simp [hx])]

theorem safe_filename_id {v : List Char}
    (hs : ∀ c ∈ v, isSpaceB c = false)
    (hf : ∀ c ∈ v, isForbidden c = false)
    (h0 : containsL v (".0".toList) = false) :
    safe_filename v = v := by
  rw [safe_filename, stripL_id hs, replaceAll]
  rw [replaceAllAux_id '.' ['0'] [] h0]
  rw [runSub, runSub, runSubAux_id isForbidden '-' hf, runSubAux_id isSpaceB ' ' hs]

-- ---------------------------------------------------------------------
-- Claim theorems
-- ---------------------------------------------------------------------

/-- C1, counterexample: on the spec's own scenario row, the generated
`en` description interpolates only the title and country, so it contains
"Greece" but NOT the brand "KRINOS" — contradicting the claim that the
description contains both. -/
theorem c1_counterexample :
    containsL (build_product missingLBlock k100_row).i18n.en.description
      ("KRINOS".toList) = false ∧
    containsL (build_product missingLBlock k100_row).i18n.en.description
      ("Greece".toList) = true := by
  decide

/-- C1, amended: for the K100 row the Content Generator produces an `en`
block with title "Olives 500g", a description containing "Greece" (the
brand "KRINOS" appears in the history texts, not in the description) and
a 3-entry history; the Localizer produces 7 additional language blocks
all sharing the title "Olives 500g"; and the Renderer writes exactly 8
HTML files under `products/K100/`, for any page template and any
`template_product.json` `en` block. -/
theorem c1_end_to_end_amended (templateEn : LBlock) (tpl : List Char) :
    (build_product templateEn k100_row).i18n.en.title = "Olives 500g".toList ∧
    containsL (build_product templateEn k100_row).i18n.en.description
      ("Greece".toList) = true ∧
    containsL (build_product templateEn k100_row).i18n.en.description
      ("KRINOS".toList) = false ∧
    ((build_product templateEn k100_row).i18n.en.history.map HistEntry.text).any
      (fun t => containsL t ("KRINOS".toList)) = true ∧
    (build_product templateEn k100_row).i18n.en.history.length = 3 ∧
    ((build_product templateEn k100_row).i18n.ru.map LBlock.title =
        some ("Olives 500g".toList) ∧
      (build_product templateEn k100_row).i18n.ua.map LBlock.title =
        some ("Olives 500g".toList) ∧
      (build_product templateEn k100_row).i18n.de.map LBlock.title =
        some ("Olives 500g".toList) ∧
      (build_product templateEn k100_row).i18n.es.map LBlock.title =
        some ("Olives 500g".toList) ∧
      (build_product templateEn k100_row).i18n.it.map LBlock.title =
        some ("Olives 500g".toList) ∧
      (build_product templateEn k100_row).i18n.hr.map LBlock.title =
        some ("Olives 500g".toList) ∧
      (build_product templateEn k100_row).i18n.hu.map LBlock.title =
        some ("Olives 500g".toList)) ∧
    (render_record tpl (build_product templateEn k100_row)).length = 8 ∧
    ((render_record tpl (build_product templateEn k100_row)).map fun f => (f.1, f.2.1)) =
      [("products/K100".toList, "index.html".toList),
       ("products/K100".toList, "ru.html".toList),
       ("products/K100".toList, "ua.html".toList),
       ("products/K100".toList, "de.html".toList),
       ("products/K100".toList, "es.html".toList),
       ("products/K100".toList, "it.html".toList),
       ("products/K100".toList, "hr.html".toList),
       ("products/K100".toList, "hu.html".toList)] := by
  refine ⟨rfl, rfl, rfl, rfl, rfl, ⟨rfl, rfl, rfl, rfl, rfl, rfl, rfl⟩, rfl, rfl⟩

/-- C2, counterexample: premium_pass is not idempotent — a record whose
description is the single character "x" gets the generic filler appended
on the first run (69 chars, still below the 180 threshold) and appended
AGAIN on the second run. -/
theorem c2_counterexample :
    premium_pass (premium_pass ⟨"B".toList, [], [], ⟨"x".toList, [], []⟩⟩) ≠
      premium_pass ⟨"B".toList, [], [], ⟨"x".toList, [], []⟩⟩ := by
  decide

/-- C2, amended: post_qc is idempotent on every record; premium_pass is
idempotent on a record whose once-padded description is empty or longer
than 180 characters and whose once-padded ingredients are empty or
longer than 60 characters (otherwise a second run appends filler again). -/
theorem c2_idempotence_amended (q : QCRec) (p : PRec)
    (hd : (premium_pass p).en.description.isEmpty = true ∨
      180 < (premium_pass p).en.description.length)
    (hi : (premium_pass p).en.ingredients.isEmpty = true ∨
      60 < (premium_pass p).en.ingredients.length) :
    post_qc (post_qc q) = post_qc q ∧
      premium_pass (premium_pass p) = premium_pass p := by
  refine ⟨post_qc_idem q, ?_⟩
  have hd' : (enhance_description p.en.description p.category).isEmpty = true ∨
      180 < (enhance_description p.en.description p.category).length := hd
  have hi' : (enhance_ingredients p.en.ingredients).isEmpty = true ∨
      60 < (enhance_ingredients p.en.ingredients).length := hi
  simp [premium_pass, enhance_description_fix _ _ hd', enhance_ingredients_fix _ hi',
    enhance_history_stable]

theorem c2_idempotence_amended_witness :
    post_qc (post_qc ⟨"B".toList, "Water".toList,
        ⟨"SPARKLING".toList, "A still water.".toList, []⟩⟩) =
      post_qc ⟨"B".toList, "Water".toList,
        ⟨"SPARKLING".toList, "A still water.".toList, []⟩⟩ ∧
    premium_pass (premium_pass ⟨"B".toList, [], [], ⟨[], [], []⟩⟩) =
      premium_pass ⟨"B".toList, [], [], ⟨[], [], []⟩⟩ :=
  c2_idempotence_amended _ _ (by decide) (by decide)

/-- C3, counterexample: `enhance_history` returns an EMPTY history
unchanged (`if not history or len(history) >= 3`), so after the pass an
empty history still has 0 entries — contradicting "including when it is
empty" and "at least 3 entries". -/
theorem c3_counterexample :
    enhance_history [] ("KRINOS".toList) ("Water".toList) ("Greece".toList) = [] ∧
    ¬ 3 ≤ (enhance_history [] ("KRINOS".toList) ("Water".toList)
      ("Greece".toList)).length := by
  decide

/-- C3, amended: premium-pass regenerates the history with the 3-stage
template exactly when the existing history is NON-empty with fewer than
3 entries; an empty history stays empty; a history with at least 3
entries is unchanged; the history never shrinks. -/
theorem c3_history_amended (h : List HistEntry) (b c co : List Char) :
    (h = [] → enhance_history h b c co = []) ∧
    (3 ≤ h.length → enhance_history h b c co = h) ∧
    (h ≠ [] → h.length < 3 → (enhance_history h b c co).length = 3) ∧
    h.length ≤ (enhance_history h b c co).length := by
  refine ⟨?_, ?_, ?_, ?_⟩
  · intro h0
    subst h0
    rfl
  · intro h3
    rw [enhance_history, if_pos (by simp [h3])]
  · intro hne hlt
    cases h with
    | nil => exact absurd rfl hne
    | cons e es =>
      rw [enhance_history, if_neg (by
        simp only [List.isEmpty_cons, Bool.false_or, decide_eq_true_eq]
        omega)]
      rfl
  · by_cases h3 : 3 ≤ h.length
    · rw [enhance_history, if_pos (by simp [h3])]
    · cases h with
      | nil => simp
      | cons e es =>
        rw [enhance_history, if_neg (by
          simp only [List.isEmpty_cons, Bool.false_or, decide_eq_true_eq]
          omega)]
        simp only [List.length_cons]
        simp only [List.length_cons] at h3
        omega

theorem c3_history_amended_witness :
    (enhance_history [(⟨"1900".toList, "t".toList⟩ : HistEntry)]
      ("B".toList) ("C".toList) ("D".toList)).length = 3 :=
  (c3_history_amended [⟨"1900".toList, "t".toList⟩] ("B".toList) ("C".toList)
    ("D".toList)).2.2.1 (by decide) (by decide)

/-- C4: the merge never clears a field — if an incoming mergeable field
is absent or empty the old value is kept, and a field differs from the
old value only when the incoming value is non-empty and different, in
which case the merged value is the incoming one. -/
theorem c4_merge_never_clears (old new : MergeEn) :
    (((new.description = none ∨ new.description = some []) →
        (merge_en old new).description = old.description) ∧
      ((new.ingredients = none ∨ new.ingredients = some []) →
        (merge_en old new).ingredients = old.ingredients) ∧
      ((new.precautions = none ∨ new.precautions = some []) →
        (merge_en old new).precautions = old.precautions) ∧
      ((new.history = none ∨ new.history = some []) →
        (merge_en old new).history = old.history) ∧
      ((new.sources = none ∨ new.sources = some []) →
        (merge_en old new).sources = old.sources)) ∧
    (((merge_en old new).description ≠ old.description →
        ∃ v, new.description = some v ∧ v ≠ [] ∧ old.description ≠ some v ∧
          (merge_en old new).description = some v) ∧
      ((merge_en old new).ingredients ≠ old.ingredients →
        ∃ v, new.ingredients = some v ∧ v ≠ [] ∧ old.ingredients ≠ some v ∧
          (merge_en old new).ingredients = some v) ∧
      ((merge_en old new).precautions ≠ old.precautions →
        ∃ v, new.precautions = some v ∧ v ≠ [] ∧ old.precautions ≠ some v ∧
          (merge_en old new).precautions = some v) ∧
      ((merge_en old new).history ≠ old.history →
        ∃ v, new.history = some v ∧ v ≠ [] ∧ old.history ≠ some v ∧
          (merge_en old new).history = some v) ∧
      ((merge_en old new).sources ≠ old.sources →
        ∃ v, new.sources = some v ∧ v ≠ [] ∧ old.sources ≠ some v ∧
          (merge_en old new).sources = some v)) :=
  ⟨⟨fun h => merge_field_keep _ h, fun h => merge_field_keep _ h,
    fun h => merge_field_keep _ h, fun h => merge_field_keep _ h,
    fun h => merge_field_keep _ h⟩,
   ⟨fun h => merge_field_overwrite _ _ h, fun h => merge_field_overwrite _ _ h,
    fun h => merge_field_overwrite _ _ h, fun h => merge_field_overwrite _ _ h,
    fun h => merge_field_overwrite _ _ h⟩⟩

theorem c4_merge_never_clears_witness :
    (merge_en ⟨some ("a".toList), none, none, none, none⟩
      ⟨some [], none, none, none, none⟩).description = some ("a".toList) :=
  (c4_merge_never_clears _ _).1.1 (Or.inr rfl)

/-- C5, counterexample: a FAILED page fetch is NOT recorded in the cache
— `fetch_and_extract` returns `None` and leaves the cache without an
entry for the URL, so re-running the same URL retries it (and can now
succeed), contradicting the claim that every failed fetch is cached as a
no-result entry. -/
theorem c5_counterexample :
    fetch_and_extract ("http://x".toList) [] FetchOutcome.exn = (none, []) ∧
    lookupA ("http://x".toList)
      (fetch_and_extract ("http://x".toList) [] FetchOutcome.exn).2 = none ∧
    (fetch_and_extract ("http://x".toList) []
      (FetchOutcome.ok ("t".toList) ("body".toList))).1 =
      some ⟨"http://x".toList, "t".toList, "body".toList⟩ := by
  decide

/-- C5, amended: a failed SEARCH is cached as an empty result and a
cached key is never re-queried whatever the outside world would return;
a failed page FETCH (exception or HTTP error) degrades to `none` without
writing a cache entry, so only successful fetches are cached; neither
function propagates the failure. -/
theorem c5_cache_amended (q url : List Char)
    (sc : List (List Char × List SearchResult)) (pc : List (List Char × WebDoc)) :
    (lookupA q sc = none → ddg_search q sc SearchOutcome.exn = ([], (q, []) :: sc)) ∧
    (∀ rs, lookupA q sc = some rs → ∀ o, ddg_search q sc o = (rs, sc)) ∧
    (lookupA url pc = none →
      fetch_and_extract url pc FetchOutcome.exn = (none, pc) ∧
      fetch_and_extract url pc FetchOutcome.httpError = (none, pc)) ∧
    (∀ d, lookupA url pc = some d → ∀ o, fetch_and_extract url pc o = (some d, pc)) := by
  refine ⟨?_, ?_, ?_, ?_⟩
  · intro h
    simp [ddg_search, h]
  · intro rs h o
    simp [ddg_search, h]
  · intro h
    constructor <;> simp [fetch_and_extract, h]
  · intro d h o
    simp [fetch_and_extract, h]

theorem c5_cache_amended_witness :
    ddg_search ("q1".toList) [] SearchOutcome.exn = ([], [("q1".toList, [])]) :=
  (c5_cache_amended ("q1".toList) ("u1".toList) [] []).1 rfl

/-- C6, counterexample: the localizer writes a `meta` key into every
language block, but the generated `en` block has no `meta` key — so the
key sets of a language block and the `en` block are NOT equal. -/
theorem c6_counterexample :
    ("meta" ∈ lang_block_keys GEN_EN_KEYS) ∧ ("meta" ∉ GEN_EN_KEYS) := by
  decide

/-- C6, amended: for every `en` block that contains the six
generator-written keys and no `meta` key, each declared language block's
key list is exactly the `en` block's keys plus the extra key "meta". -/
theorem c6_keys_amended (enKeys : List String)
    (hm : "meta" ∉ enKeys)
    (hk : ∀ k ∈ GEN_EN_KEYS, k ∈ enKeys) :
    lang_block_keys enKeys = enKeys ++ ["meta"] := by
  have hsec : "sections" ∈ enKeys := hk _ (by simp [GEN_EN_KEYS])
  have hti : "title" ∈ enKeys := hk _ (by simp [GEN_EN_KEYS])
  have hde : "description" ∈ enKeys := hk _ (by simp [GEN_EN_KEYS])
  have hin : "ingredients" ∈ enKeys := hk _ (by simp [GEN_EN_KEYS])
  have hpr : "precautions" ∈ enKeys := hk _ (by simp [GEN_EN_KEYS])
  have hhi : "history" ∈ enKeys := hk _ (by simp [GEN_EN_KEYS])
  simp only [lang_block_keys, I18N_WRITTEN_KEYS, List.foldl_cons, List.foldl_nil]
  have e1 : dictInsertKey enKeys "sections" = enKeys := by
    rw [dictInsertKey, if_pos hsec]
  rw [e1]
  have e2 : dictInsertKey enKeys "meta" = enKeys ++ ["meta"] := by
    rw [dictInsertKey, if_neg hm]
  rw [e2]
  have e3 : dictInsertKey (enKeys ++ ["meta"]) "title" = enKeys ++ ["meta"] := by
    rw [dictInsertKey, if_pos (List.mem_append_left _ hti)]
  rw [e3]
  have e4 : dictInsertKey (enKeys ++ ["meta"]) "description" = enKeys ++ ["meta"] := by
    rw [dictInsertKey, if_pos (List.mem_append_left _ hde)]
  rw [e4]
  have e5 : dictInsertKey (enKeys ++ ["meta"]) "ingredients" = enKeys ++ ["meta"] := by
    rw [dictInsertKey, if_pos (List.mem_append_left _ hin)]
  rw [e5]
  have e6 : dictInsertKey (enKeys ++ ["meta"]) "precautions" = enKeys ++ ["meta"] := by
    rw [dictInsertKey, if_pos (List.mem_append_left _ hpr)]
  rw [e6]
  have e7 : dictInsertKey (enKeys ++ ["meta"]) "history" = enKeys ++ ["meta"] := by
    rw [dictInsertKey, if_pos (List.mem_append_left _ hhi)]
  rw [e7]

theorem c6_keys_amended_witness :
    lang_block_keys GEN_EN_KEYS = GEN_EN_KEYS ++ ["meta"] :=
  c6_keys_amended GEN_EN_KEYS (by decide) (by decide)

/-- C7, counterexample: `safe_filename` removes EVERY occurrence of
".0", not only a trailing one — "10.02" has no trailing ".0" yet is
changed to "102", contradicting "strips the trailing .0 ... while
leaving the rest of the string unchanged". -/
theorem c7_counterexample :
    safe_filename ("10.02".toList) = "102".toList ∧
      ("10.02".toList : List Char) ≠ "102".toList := by
  decide

/-- C7, amended: sanitization strips outer whitespace, removes every
occurrence of the substring ".0" (not only trailing ones), replaces runs
of forbidden filesystem characters with "-" and collapses whitespace
runs; a string with no whitespace, no forbidden characters and no ".0"
is left unchanged; the claim's examples hold. -/
theorem c7_sanitize_amended :
    (safe_filename ("123.0".toList) = "123".toList) ∧
    (safe_filename ("A/B:C".toList) = "A-B-C".toList) ∧
    (safe_filename ("10.02".toList) = "102".toList) ∧
    ∀ v : List Char, (∀ c ∈ v, isSpaceB c = false) →
      (∀ c ∈ v, isForbidden c = false) →
      containsL v (".0".toList) = false → safe_filename v = v := by
  refine ⟨by decide, by decide, by decide, ?_⟩
  intro v hs hf h0
  exact safe_filename_id hs hf h0

theorem c7_sanitize_amended_witness :
    safe_filename ("abc".toList) = "abc".toList :=
  c7_sanitize_amended.2.2.2 ("abc".toList) (by decide) (by decide) (by decide)

/-- C8: for a Water-category record whose title contains "SPARKLING" and
whose description contains the whole word "still" (case-insensitively),
the Post-QC water correction yields a description that contains the
whole word "sparkling" and no whole word "still". -/
theorem c8_water_correction (r : QCRec)
    (hcat : r.category = "Water".toList)
    (htitle : containsL (toUpperL r.en.title) ("SPARKLING".toList) = true)
    (hdesc : hasWordCI 's' ("till".toList) false r.en.description = true) :
    hasWordCI 's' ("parkling".toList) false (post_qc r).en.description = true ∧
      hasWordCI 's' ("till".toList) false (post_qc r).en.description = false := by
  have hm2 : (containsL (toUpperL r.en.title) "SPARKLING".toList ||
      containsL (toUpperL r.en.title) "CARBONATED".toList ||
      containsL (toUpperL r.en.title) "GREEN".toList) = true := by
    rw [htitle]
    rfl
  have h := fix_water_still_gone r.en.description r.en.title hm2 hdesc
  have hd : (post_qc r).en.description =
      fix_water_description r.en.description r.en.title := by
    simp [post_qc, hcat]
  rw [hd]
  exact ⟨h.2, h.1⟩

theorem c8_water_correction_witness :
    hasWordCI 's' ("parkling".toList) false
      (post_qc ⟨"B".toList, "Water".toList,
        ⟨"ACQUA SPARKLING 1L".toList, "A still mineral water.".toList, []⟩⟩).en.description
      = true ∧
    hasWordCI 's' ("till".toList) false
      (post_qc ⟨"B".toList, "Water".toList,
        ⟨"ACQUA SPARKLING 1L".toList, "A still mineral water.".toList, []⟩⟩).en.description
      = false :=
  c8_water_correction _ (by decide) (by decide) (by decide)

/-- C9: when the SKU's content file does not exist, both the GET and the
POST endpoint return a 404-style error payload and the store is left
unmodified; when the file exists, GET returns the full record. -/
theorem c9_not_found (store : List (List Char × AppProduct)) (sku : List Char)
    (body : PostBody) :
    (lookupA sku store = none →
      get_product store sku = ApiResult.notFound ("SKU not found".toList) ∧
      save_product store sku body = (ApiResult.notFound ("SKU not found".toList), store)) ∧
    (∀ p, lookupA sku store = some p → get_product store sku = ApiResult.ok p) := by
  constructor
  · intro h
    constructor
    · simp [get_product, h]
    · simp [save_product, h]
  · intro p h
    simp [get_product, h]

theorem c9_not_found_witness :
    get_product [] ("X1".toList) = ApiResult.notFound ("SKU not found".toList) :=
  ((c9_not_found [] ("X1".toList) ⟨"en".toList, none, none, none, none⟩).1 rfl).1

/-- C10: a POST on an existing SKU assigns all four editable fields of
the target language block from the body (defaults for omitted fields),
keeps the block's other keys, leaves every other language block and
every non-i18n top-level field unchanged, and writes the record back. -/
theorem c10_post_frame (store : List (List Char × AppProduct)) (sku : List Char)
    (body : PostBody) (p : AppProduct) (h : lookupA sku store = some p) :
    let blk := (lookupA body.lang p.i18n).getD emptyAppBlock
    let blk' : AppBlock :=
      { blk with
        description := body.description.getD []
        ingredients := body.ingredients.getD []
        precautions := body.precautions.getD []
        history := body.history.getD [] }
    let p' : AppProduct := { p with i18n := updateA body.lang blk' p.i18n }
    (save_product store sku body).1 = ApiResult.ok ("saved".toList) ∧
    (save_product store sku body).2 = updateA sku p' store ∧
    lookupA sku (save_product store sku body).2 = some p' ∧
    lookupA body.lang p'.i18n = some blk' ∧
    (∀ l, l ≠ body.lang → lookupA l p'.i18n = lookupA l p.i18n) ∧
    p'.rest = p.rest := by
  intro blk blk' p'
  have hsp : save_product store sku body =
      (ApiResult.ok ("saved".toList), updateA sku p' store) := by
    simp [save_product, h]
  refine ⟨by rw [hsp], by rw [hsp], ?_, ?_, ?_, rfl⟩
  · rw [hsp]
    exact lookupA_updateA_self sku p' store
  · exact lookupA_updateA_self body.lang blk' p.i18n
  · intro l hl
    exact lookupA_updateA_other hl blk' p.i18n

theorem c10_post_frame_witness :
    (save_product [("K1".toList, (⟨[], []⟩ : AppProduct))] ("K1".toList)
      ⟨"ru".toList, some ("d".toList), none, none, none⟩).1 =
      ApiResult.ok ("saved".toList) :=
  (c10_post_frame [("K1".toList, ⟨[], []⟩)] ("K1".toList)
    ⟨"ru".toList, some ("d".toList), none, none, none⟩ ⟨[], []⟩ rfl).1

end QRP
